import Mathlib

/-!
# Archive import of `pkg/move/import.go`

A shallow embedding of the import pipeline (`untar`, `createFile`,
`createContact`, `createAlbums`, `fillAlbums`) together with the Go standard
library path helpers it calls.  Go strings are byte strings; the helpers below
only ever inspect the ASCII bytes `/` and `.`, so they are modelled on the
character list of a Lean `String`.
-/

set_option autoImplicit false

namespace Move

/-! ## Go standard library: `strings` and `path` -/

/-- Go `strings.TrimPrefix` on character lists. -/
def trimPrefixChars (s p : List Char) : List Char :=
  if p.isPrefixOf s then s.drop p.length else s

/-- Go `strings.TrimPrefix`. -/
def strings_TrimPrefix (s p : String) : String :=
  ⟨trimPrefixChars s.data p.data⟩

/-- Go `strings.SplitN` for a one-byte separator: at most `n` pieces, the last
one holding the unsplit remainder (`n = 0` yields no piece). -/
def splitNChars (sep : Char) : Nat → List Char → List (List Char)
  | 0, _ => []
  | 1, s => [s]
  | n + 2, s =>
    if sep ∈ s then
      s.takeWhile (fun c => c ≠ sep) :: splitNChars sep (n + 1) (s.dropWhile (fun c => c ≠ sep)).tail
    else [s]

/-- Go `strings.SplitN(s, "/", n)`. -/
def strings_SplitN_slash (s : String) (n : Nat) : List String :=
  (splitNChars '/' n s.data).map String.mk

/-- Inner loop of the `..` case of `path.Clean`: `rev` is the written buffer
reversed (its length is `out.w`), `x` is the byte at index `out.w`. -/
def cleanBacktrackLoop (dotdot : Nat) : List Char → Char → List Char
  | [], _ => []
  | c :: rest, x =>
    if (c :: rest).length > dotdot ∧ x ≠ '/' then cleanBacktrackLoop dotdot rest c
    else c :: rest

/-- The `..` case of `path.Clean` when `out.w > dotdot`: drop the last element
of the buffer, back to the previous `/` or to `dotdot`. -/
def cleanBacktrack (out : List Char) (dotdot : Nat) : List Char :=
  match out.reverse with
  | [] => []
  | x :: rest => (cleanBacktrackLoop dotdot rest x).reverse

/-- Main loop of `path.Clean`: `p` is the unread input `path[r:]`, `out` the
bytes written so far, `dotdot` the index where `..` must stop.  Each iteration
consumes at least one byte of `p`, so `p.length` iterations suffice. -/
def cleanLoop (rooted : Bool) : Nat → List Char → List Char → Nat → List Char
  | 0, _, out, _ => out
  | _ + 1, [], out, _ => out
  | fuel + 1, c :: rest, out, dotdot =>
    if c = '/' then
      cleanLoop rooted fuel rest out dotdot
    else if c = '.' ∧ (rest = [] ∨ rest.head? = some '/') then
      cleanLoop rooted fuel rest out dotdot
    else if c = '.' ∧ rest.head? = some '.' ∧ (rest.tail = [] ∨ rest.tail.head? = some '/') then
      if out.length > dotdot then
        cleanLoop rooted fuel rest.tail (cleanBacktrack out dotdot) dotdot
      else if !rooted then
        let out2 := (if out.length > 0 then out ++ ['/'] else out) ++ ['.', '.']
        cleanLoop rooted fuel rest.tail out2 out2.length
      else
        cleanLoop rooted fuel rest.tail out dotdot
    else
      let out1 :=
        if (rooted && out.length != 1) || (!rooted && out.length != 0) then out ++ ['/'] else out
      cleanLoop rooted fuel (rest.dropWhile (fun d => d ≠ '/'))
        (out1 ++ c :: rest.takeWhile (fun d => d ≠ '/')) dotdot

/-- Go `path.Clean` on character lists. -/
def cleanChars (p : List Char) : List Char :=
  if p = [] then ['.']
  else
    let rooted : Bool := p.head? = some '/'
    let out :=
      if rooted then cleanLoop true p.length p.tail ['/'] 1
      else cleanLoop false p.length p [] 0
    if out = [] then ['.'] else out

/-- Go `path.Clean`. -/
def path_Clean (p : String) : String := ⟨cleanChars p.data⟩

/-- Go `path.Join`: the first non-empty element starts the path; the elements
from there on are joined with `/` and cleaned. -/
def path_Join : List String → String
  | [] => ""
  | e :: rest =>
    if e ≠ "" then path_Clean ⟨List.intercalate ['/'] ((e :: rest).map String.data)⟩
    else path_Join rest

/-- Go `path.Split`, first component: everything up to and including the last
`/` (empty when there is none). -/
def splitDirChars (p : List Char) : List Char :=
  (p.reverse.dropWhile (fun c => c ≠ '/')).reverse

/-- Go `path.Dir`. -/
def path_Dir (p : String) : String := ⟨cleanChars (splitDirChars p.data)⟩

/-- Go `path.Base` on character lists. -/
def baseChars (p : List Char) : List Char :=
  if p = [] then ['.']
  else
    let stripped := (p.reverse.dropWhile (fun c => c = '/')).reverse
    let last := (stripped.reverse.takeWhile (fun c => c ≠ '/')).reverse
    if last = [] then ['/'] else last

/-- Go `path.Base`. -/
def path_Base (p : String) : String := ⟨baseChars p.data⟩

/-- Loop of Go `path.Ext`, scanning backwards: `rev` is the unscanned part
reversed, `acc` the bytes already scanned. -/
def extLoop : List Char → List Char → List Char
  | [], _ => []
  | c :: rest, acc =>
    if c = '/' then []
    else if c = '.' then '.' :: acc
    else extLoop rest (c :: acc)

/-- Go `path.Ext`. -/
def path_Ext (p : String) : String := ⟨extLoop p.data.reverse []⟩

/-! ## Data model -/

/-- Errors returned by the importer and its collaborators.  `ErrExist` is the
storage layer's name collision (`os.ErrExist`), `UnknownTypeflag` is
`errors.New("Unknown typeflag")`; `Other` stands for every other error value. -/
inductive Error where
  | ErrExist
  | ErrNotExist
  | UnknownTypeflag
  | Other (msg : String)
  deriving DecidableEq

/-- `ContactName` of `import.go`. -/
structure ContactName where
  FamilyName : String := ""
  GivenName : String := ""
  AdditionalName : String := ""
  NamePrefix : String := ""
  NameSuffix : String := ""
  deriving DecidableEq

/-- `ContactEmail` of `import.go`. -/
structure ContactEmail where
  Address : String := ""
  Type_ : String := ""
  Label : String := ""
  Primary : Bool := false
  deriving DecidableEq

/-- `ContactAddress` of `import.go`. -/
structure ContactAddress where
  Street : String := ""
  Pobox : String := ""
  City : String := ""
  Region : String := ""
  Postcode : String := ""
  Country : String := ""
  Type_ : String := ""
  Primary : Bool := false
  Label : String := ""
  FormattedAddress : String := ""
  deriving DecidableEq

/-- `ContactPhone` of `import.go`. -/
structure ContactPhone where
  Number : String := ""
  Type_ : String := ""
  Label : String := ""
  Primary : Bool := false
  deriving DecidableEq

/-- `ContactCozy` of `import.go`. -/
structure ContactCozy where
  URL : String := ""
  Label : String := ""
  Primary : Bool := false
  deriving DecidableEq

/-- `Contact` of `import.go`; fields left out of a composite literal take Go's
zero value (empty string, nil slice). -/
structure Contact where
  DocID : String := ""
  DocRev : String := ""
  FullName : String := ""
  Name : ContactName := {}
  Birthday : String := ""
  Note : String := ""
  Email : List ContactEmail := []
  Address : List ContactAddress := []
  Phone : List ContactPhone := []
  Cozy : List ContactCozy := []
  deriving DecidableEq

/-- `couchdb.DocReference`: identifier and doctype of a referenced document. -/
structure DocReference where
  ID : String
  Type_ : String
  deriving DecidableEq

/-- `AlbumReferences` (`map[string]couchdb.DocReference`) as an association
list with at most one pair per key. -/
abbrev AlbumReferences := List (String × DocReference)

/-- Map read `m[k]` with the `ok` flag. -/
def mapGet {β : Type} (m : List (String × β)) (k : String) : Option β :=
  (m.find? (fun kv => kv.1 = k)).map Prod.snd

/-- Builtin `delete(m, k)`. -/
def mapDelete {β : Type} (m : List (String × β)) (k : String) : List (String × β) :=
  m.filter (fun kv => kv.1 ≠ k)

/-- Map write `m[k] = v`: the binding of `k` is replaced. -/
def mapSet {β : Type} (m : List (String × β)) (k : String) (v : β) : List (String × β) :=
  mapDelete m k ++ [(k, v)]

/-- A decoded JSON value (`interface{}`): either a Go `string` or a value of
another dynamic type, drawn from `X`. -/
inductive JSONValue (X : Type) where
  | str (s : String)
  | other (x : X)
  deriving DecidableEq

/-- `couchdb.JSONDoc`: the decoded object `M` and the doctype `Type`
(here `Type_`, as for the other fields of that name). -/
structure JSONDoc (X : Type) where
  M : List (String × JSONValue X)
  Type_ : String
  deriving DecidableEq

/-- Modelled from the spec: `JSONDoc.ID` of `pkg/couchdb` (not among the
sources): the identifier field `_id` of the record when it is a string, the
empty string otherwise. -/
def JSONDoc.ID {X : Type} (j : JSONDoc X) : String :=
  match mapGet j.M "_id" with
  | some (JSONValue.str s) => s
  | _ => ""

/-- Modelled from the spec: `JSONDoc.SetID` of `pkg/couchdb` (not among the
sources): setting the empty identifier clears the `_id` field, any other value
is stored in it. -/
def JSONDoc.SetID {X : Type} (j : JSONDoc X) (id : String) : JSONDoc X :=
  if id = "" then { j with M := mapDelete j.M "_id" }
  else { j with M := mapSet j.M "_id" (JSONValue.str id) }

/-- Modelled from the spec: `JSONDoc.SetRev` of `pkg/couchdb` (not among the
sources): setting the empty revision clears the `_rev` field, any other value
is stored in it. -/
def JSONDoc.SetRev {X : Type} (j : JSONDoc X) (rev : String) : JSONDoc X :=
  if rev = "" then { j with M := mapDelete j.M "_rev" }
  else { j with M := mapSet j.M "_rev" (JSONValue.str rev) }

/-- `Reference` (declared outside `import.go`): one record of the album
references entry, with the two fields `fillAlbums` reads. -/
structure Reference where
  Albumid : String
  Filepath : String
  deriving DecidableEq

/-- `vfs.DirDoc`, the fields the importer reads. -/
structure DirDoc where
  DocID : String
  Fullpath : String
  deriving DecidableEq

/-- `vfs.FileDoc`, the fields set through `vfs.NewFileDoc` and
`AddReferencedBy`. -/
structure FileDoc where
  DocID : String := ""
  DocRev : String := ""
  DocName : String
  DirID : String
  ByteSize : Int
  MD5Sum : List Nat := []
  Mime : String
  Class : String
  CreatedAt : Nat
  Executable : Bool
  Trashed : Bool := false
  Tags : List String := []
  ReferencedBy : List DocReference := []
  deriving DecidableEq

/-- Modelled from the spec: `FileDoc.AddReferencedBy` of `pkg/vfs` (not among
the sources): attaches a back-reference to the file. -/
def FileDoc.AddReferencedBy (f : FileDoc) (ref : DocReference) : FileDoc :=
  { f with ReferencedBy := f.ReferencedBy ++ [ref] }

/-- `tar.Header`, the fields the importer reads. -/
structure Header where
  Name : String
  Typeflag : Char
  Size : Int
  Mode : Nat
  deriving DecidableEq

/-- `tar.TypeReg`. -/
def tar_TypeReg : Char := '0'

/-- `tar.TypeDir`. -/
def tar_TypeDir : Char := '5'

/-- `vcard.Name` of go-vcard: the parsed `N` field. -/
structure VName where
  Value : String
  FamilyName : String
  GivenName : String
  AdditionalName : String
  HonorificPrefix : String
  HonorificSuffix : String
  deriving DecidableEq

/-- `vcard.Field` of go-vcard, the value. -/
structure VField where
  Value : String
  deriving DecidableEq

/-- `vcard.Address` of go-vcard. -/
structure VAddress where
  Value : String
  PostOfficeBox : String
  ExtendedAddress : String
  StreetAddress : String
  Locality : String
  Region : String
  PostalCode : String
  Country : String
  deriving DecidableEq

/-- A decoded `vcard.Card` of go-vcard.  The card maps each property name to
its fields (`fields`); `Name` and `Addresses` are what the accessors `Name()`
(nil when the card has no `N` field) and `Addresses()` parse from the `N` and
the `ADR` fields. -/
structure Card where
  fields : String → List VField
  Name : Option VName
  Addresses : List VAddress

/-- `Card.FormattedNames()` of go-vcard: the `FN` fields of the card.  The
result is never empty: for a card without `FN` field it is one field with an
empty value. -/
def Card.FormattedNames (c : Card) : List VField :=
  match c.fields "FN" with
  | [] => [⟨""⟩]
  | f :: rest => f :: rest

/-- `Card.Get(k)` of go-vcard: the first field of the property, nil when there
is none. -/
def Card.Get (c : Card) (k : String) : Option VField :=
  (c.fields k).head?

/-- `Card.Values(k)` of go-vcard: the values of the fields of the property. -/
def Card.Values (c : Card) (k : String) : List String :=
  (c.fields k).map (fun f => f.Value)

/-- A document handed to the document store. -/
inductive Doc (X : Type) where
  | contact (c : Contact)
  | json (j : JSONDoc X)
  | file (f : FileDoc)
  deriving DecidableEq

/-- `vfs.File`, the handle returned by `CreateFile`. -/
abbrev File := Nat

/-- One call to the storage layer or to the document store, with its outcome. -/
inductive Event (X : Type) where
  | DirByPath (path : String) (found : Bool)
  | MkdirAll (path : String) (err : Option Error)
  | FileByPath (path : String) (found : Bool)
  | CreateFile (doc : FileDoc) (res : Except Error File)
  | Copy (file : File) (content : String) (err : Option Error)
  | Close (file : File) (err : Option Error)
  | CreateDoc (doc : Doc X) (res : Except Error (String × String))
  | UpdateDoc (doc : Doc X) (err : Option Error)
  | RandInt (r : Nat)

/-- What the importer takes from outside `import.go`, over a store state `σ`:
the file-storage layer (`vfs`), the document store (`couchdb`), the decoders,
the clock, the random source and the album doctype `consts.PhotosAlbums`. -/
structure Collab (σ X : Type) where
  PhotosAlbums : String
  DirByPath : σ → String → Except Error DirDoc
  FileByPath : σ → String → Except Error FileDoc
  MkdirAll : σ → String → Except Error DirDoc × σ
  CreateFile : σ → FileDoc → Except Error File × σ
  Copy : σ → File → String → Option Error × σ
  Close : σ → File → Option Error × σ
  checkFileName : String → Option Error
  ExtractMimeAndClassFromFilename : String → String × String
  CreateDoc : σ → Doc X → Except Error (String × String) × σ
  UpdateDoc : σ → Doc X → Option Error × σ
  DecodeVCard : String → Except Error Card
  UnmarshalJSONDoc : String → Except Error (JSONDoc X)
  UnmarshalReference : String → Except Error Reference
  ScanLines : String → List String
  Now : σ → Nat
  RandInt : σ → Nat × σ

/-- The store state together with the calls made so far. -/
structure World (σ X : Type) where
  st : σ
  trace : List (Event X)

/-- Record a call and move to the state it leaves. -/
def World.step {σ X : Type} (w : World σ X) (s : σ) (e : Event X) : World σ X :=
  { st := s, trace := w.trace ++ [e] }

/-- What `tgz.Next()` yields before the end of the stream: an entry (header and
content) or a read error. -/
inductive TarNext where
  | entry (hdr : Header) (body : String)
  | fail (err : Error)

/-! ## Calls to the collaborators, recorded in the trace -/

/-- `fs.DirByPath`. -/
def fs_DirByPath {σ X : Type} (c : Collab σ X) (path : String) (w : World σ X) :
    Except Error DirDoc × World σ X :=
  match c.DirByPath w.st path with
  | .ok d => (.ok d, w.step w.st (.DirByPath path true))
  | .error err => (.error err, w.step w.st (.DirByPath path false))

/-- `fs.FileByPath`. -/
def fs_FileByPath {σ X : Type} (c : Collab σ X) (path : String) (w : World σ X) :
    Except Error FileDoc × World σ X :=
  match c.FileByPath w.st path with
  | .ok f => (.ok f, w.step w.st (.FileByPath path true))
  | .error err => (.error err, w.step w.st (.FileByPath path false))

/-- `vfs.MkdirAll(fs, path, nil)`. -/
def vfs_MkdirAll {σ X : Type} (c : Collab σ X) (path : String) (w : World σ X) :
    Except Error DirDoc × World σ X :=
  match c.MkdirAll w.st path with
  | (.ok d, s) => (.ok d, w.step s (.MkdirAll path none))
  | (.error err, s) => (.error err, w.step s (.MkdirAll path (some err)))

/-- `fs.CreateFile(doc, nil)`. -/
def fs_CreateFile {σ X : Type} (c : Collab σ X) (doc : FileDoc) (w : World σ X) :
    Except Error File × World σ X :=
  match c.CreateFile w.st doc with
  | (.ok f, s) => (.ok f, w.step s (.CreateFile doc (.ok f)))
  | (.error err, s) => (.error err, w.step s (.CreateFile doc (.error err)))

/-- `io.Copy(file, tr)`. -/
def io_Copy {σ X : Type} (c : Collab σ X) (file : File) (tr : String) (w : World σ X) :
    Option Error × World σ X :=
  match c.Copy w.st file tr with
  | (err, s) => (err, w.step s (.Copy file tr err))

/-- `file.Close()`. -/
def file_Close {σ X : Type} (c : Collab σ X) (file : File) (w : World σ X) :
    Option Error × World σ X :=
  match c.Close w.st file with
  | (err, s) => (err, w.step s (.Close file err))

/-- `couchdb.CreateDoc`: on success the store's answer carries the identifier
and the revision it assigned. -/
def couchdb_CreateDoc {σ X : Type} (c : Collab σ X) (doc : Doc X) (w : World σ X) :
    Except Error (String × String) × World σ X :=
  match c.CreateDoc w.st doc with
  | (res, s) => (res, w.step s (.CreateDoc doc res))

/-- `couchdb.UpdateDoc`. -/
def couchdb_UpdateDoc {σ X : Type} (c : Collab σ X) (doc : Doc X) (w : World σ X) :
    Option Error × World σ X :=
  match c.UpdateDoc w.st doc with
  | (err, s) => (err, w.step s (.UpdateDoc doc err))

/-- `rand.Int()`: a non-negative pseudo-random integer. -/
def rand_Int {σ X : Type} (c : Collab σ X) (w : World σ X) : Nat × World σ X :=
  match c.RandInt w.st with
  | (r, s) => (r, w.step s (.RandInt r))

/-- Modelled from the spec: `vfs.NewFileDoc` of `pkg/vfs` (not among the
sources), called with no checksum, not trashed and no tags: the file metadata
built from the leaf name, the parent identifier, the declared size, the MIME
type and class, the date and the executable bit; an invalid name is refused. -/
def vfs_NewFileDoc {σ X : Type} (c : Collab σ X) (name dirID : String) (size : Int)
    (mime cls : String) (cdate : Nat) (executable : Bool) : Except Error FileDoc :=
  match c.checkFileName name with
  | some err => .error err
  | none =>
    .ok { DocName := name, DirID := dirID, ByteSize := size, Mime := mime, Class := cls,
          CreatedAt := cdate, Executable := executable }

/-! ## The importer -/

/-- Lines 129-198 of `createContact`: the contact built from a decoded vCard. -/
def createContact_contact (vcard : Card) : Contact :=
  let fullname := "John Doe"
  let contactname : ContactName := { GivenName := "John", FamilyName := "Doe" }
  let named : ContactName × String :=
    match vcard.Name with
    | some name =>
      ({ FamilyName := name.FamilyName, GivenName := name.GivenName,
         AdditionalName := name.AdditionalName, NamePrefix := name.HonorificPrefix,
         NameSuffix := name.HonorificSuffix }, name.Value)
    | none => (contactname, fullname)
  let contactname := named.1
  let fullname := named.2
  let fullname :=
    match vcard.FormattedNames with
    | n :: _ => n.Value
    | [] => fullname
  let bday := match vcard.Get "BDAY" with
    | some field => field.Value
    | none => ""
  let note := match vcard.Get "NOTE" with
    | some field => field.Value
    | none => ""
  let contactemail : List ContactEmail :=
    (vcard.Values "EMAIL").map (fun mail => { Address := mail })
  let contactphone : List ContactPhone :=
    (vcard.Values "TEL").map (fun phone => { Number := phone })
  let contactaddress : List ContactAddress :=
    vcard.Addresses.map (fun address =>
      { Street := address.StreetAddress, Pobox := address.PostOfficeBox,
        City := address.Locality, Region := address.Region,
        Postcode := address.PostalCode, Country := address.Country,
        FormattedAddress := address.Value })
  { FullName := fullname, Name := contactname, Birthday := bday, Note := note,
    Address := contactaddress, Email := contactemail, Phone := contactphone }

/-- `createContact` (the header `hdr` is not read): the vCard is decoded, the
contact is built by `createContact_contact` and handed to the document
store. -/
def createContact {σ X : Type} (c : Collab σ X) (_hdr : Header) (tr : String)
    (w : World σ X) : Option Error × World σ X :=
  match c.DecodeVCard tr with
  | .error err => (some err, w)
  | .ok vcard =>
    match couchdb_CreateDoc c (.contact (createContact_contact vcard)) w with
    | (.error err, w1) => (some err, w1)
    | (.ok _, w1) => (none, w1)

/-- The `for bs.Scan()` loop of `createAlbums` over the scanned lines. -/
def createAlbumsLoop {σ X : Type} (c : Collab σ X) :
    List String → AlbumReferences → World σ X → Option Error × AlbumReferences × World σ X
  | [], albums, w => (none, albums, w)
  | line :: rest, albums, w =>
    match c.UnmarshalJSONDoc line with
    | .error err => (some err, albums, w)
    | .ok parsed =>
      let jsondoc : JSONDoc X := { parsed with M := mapDelete parsed.M "type" }
      let id := jsondoc.ID
      let jsondoc := jsondoc.SetID ""
      let jsondoc := jsondoc.SetRev ""
      let jsondoc : JSONDoc X := { jsondoc with Type_ := c.PhotosAlbums }
      match couchdb_CreateDoc c (.json jsondoc) w with
      | (.error err, w1) => (some err, albums, w1)
      | (.ok (newID, newRev), w1) =>
        let jsondoc := (jsondoc.SetID newID).SetRev newRev
        createAlbumsLoop c rest
          (mapSet albums id { ID := jsondoc.ID, Type_ := c.PhotosAlbums }) w1

/-- `createAlbums`: one album document per line of the manifest entry. -/
def createAlbums {σ X : Type} (c : Collab σ X) (tr : String) (albums : AlbumReferences)
    (w : World σ X) : Option Error × AlbumReferences × World σ X :=
  createAlbumsLoop c (c.ScanLines tr) albums w

/-- The `for bs.Scan()` loop of `fillAlbums` over the scanned lines. -/
def fillAlbumsLoop {σ X : Type} (c : Collab σ X) (dstDoc : DirDoc) :
    List String → AlbumReferences → World σ X → Option Error × AlbumReferences × World σ X
  | [], albums, w => (none, albums, w)
  | line :: rest, albums, w =>
    match c.UnmarshalReference line with
    | .error err => (some err, albums, w)
    | .ok ref =>
      match fs_FileByPath c (dstDoc.Fullpath ++ ref.Filepath) w with
      | (.error _, w1) => fillAlbumsLoop c dstDoc rest albums w1
      | (.ok file, w1) =>
        match mapGet albums ref.Albumid with
        | some docRef =>
          let file := file.AddReferencedBy docRef
          match couchdb_UpdateDoc c (.file file) w1 with
          | (some err, w2) => (some err, albums, w2)
          | (none, w2) => fillAlbumsLoop c dstDoc rest albums w2
        | none => fillAlbumsLoop c dstDoc rest albums w1

/-- `fillAlbums`: one reference record per line of the references entry. -/
def fillAlbums {σ X : Type} (c : Collab σ X) (tr : String) (dstDoc : DirDoc)
    (albums : AlbumReferences) (w : World σ X) :
    Option Error × AlbumReferences × World σ X :=
  fillAlbumsLoop c dstDoc (c.ScanLines tr) albums w

/-- The name `createFile` gives the file on its second attempt:
`fmt.Sprintf("%s-conflict-%d%s", fileName, rand.Int(), ext)`. -/
def conflictName (docName : String) (r : Nat) : String :=
  let ext := path_Ext docName
  let fileName : String := ⟨docName.data.take (docName.data.length - ext.data.length)⟩
  fileName ++ "-conflict-" ++ toString r ++ ext

/-- Lines 268-274 of `createFile`: the parent directory, looked up by path and
created with its ancestors when the lookup fails. -/
def createFile_dirDoc {σ X : Type} (c : Collab σ X) (dirname : String) (w : World σ X) :
    Except Error DirDoc × World σ X :=
  match fs_DirByPath c dirname w with
  | (.ok d, w1) => (.ok d, w1)
  | (.error _, w1) => vfs_MkdirAll c dirname w1

/-- Lines 280-289 of `createFile`: the file is created; when that fails it is
created once more under the conflict name. -/
def createFile_file {σ X : Type} (c : Collab σ X) (fileDoc : FileDoc) (w : World σ X) :
    Except Error File × World σ X :=
  match fs_CreateFile c fileDoc w with
  | (.ok file, w2) => (.ok file, w2)
  | (.error _, w2) =>
    match rand_Int c w2 with
    | (r, w2r) =>
      let fileDoc : FileDoc := { fileDoc with DocName := conflictName fileDoc.DocName r }
      fs_CreateFile c fileDoc w2r

/-- Lines 291-296 of `createFile`: the content is copied, the file is closed,
and the copy error is returned before the close error. -/
def createFile_copy {σ X : Type} (c : Collab σ X) (file : File) (tr : String)
    (w : World σ X) : Option Error × World σ X :=
  match io_Copy c file tr w with
  | (err, w4) =>
    match file_Close c file w4 with
    | (cerr, w5) =>
      match err with
      | some e => (some e, w5)
      | none => (cerr, w5)

/-- `createFile`, its three blocks being `createFile_dirDoc`, `createFile_file`
and `createFile_copy`. -/
def createFile {σ X : Type} (c : Collab σ X) (hdr : Header) (tr : String) (dstDoc : DirDoc)
    (w : World σ X) : Option Error × World σ X :=
  let name := strings_TrimPrefix hdr.Name "files/"
  let filename := path_Base name
  let mc := c.ExtractMimeAndClassFromFilename filename
  let now := c.Now w.st
  let executable : Bool := decide (hdr.Mode &&& 0o100 ≠ 0)
  let dirname := path_Join [dstDoc.Fullpath, path_Dir name]
  match createFile_dirDoc c dirname w with
  | (.error err, w1) => (some err, w1)
  | (.ok dirDoc, w1) =>
    match vfs_NewFileDoc c filename dirDoc.DocID hdr.Size mc.1 mc.2 now executable with
    | .error err => (some err, w1)
    | .ok fileDoc =>
      match createFile_file c fileDoc w1 with
      | (.error err, w3) => (some err, w3)
      | (.ok file, w3) => createFile_copy c file tr w3

/-- The `(doctype, name)` pair `untar` derives from an entry name. -/
def untarParts (hdrName : String) : String × String :=
  let parts := strings_SplitN_slash (path_Clean hdrName) 2
  if parts.length > 1 then (parts.getD 0 "", parts.getD 1 "") else ("", "")

/-- The body of the `for` loop of `untar` once a header has been read; the
reserved names `albumsFile` and `referencesFile` are declared outside
`import.go`. -/
def untarEntry {σ X : Type} (c : Collab σ X) (albumsFile referencesFile : String)
    (dst : DirDoc) (hdr : Header) (body : String) (albumsRef : AlbumReferences)
    (w : World σ X) : Option Error × AlbumReferences × World σ X :=
  let parts := untarParts hdr.Name
  let doctype := parts.1
  let name := parts.2
  if hdr.Typeflag = tar_TypeDir then
    if doctype = "files" then
      let dirname := path_Join [dst.Fullpath, name]
      match vfs_MkdirAll c dirname w with
      | (.error err, w1) => (some err, albumsRef, w1)
      | (.ok _, w1) => (none, albumsRef, w1)
    else (none, albumsRef, w)
  else if hdr.Typeflag = tar_TypeReg then
    if doctype = "albums" ∧ name = albumsFile then
      createAlbums c body albumsRef w
    else if doctype = "albums" ∧ name = referencesFile then
      fillAlbums c body dst albumsRef w
    else if doctype = "contacts" then
      match createContact c hdr body w with
      | (err, w1) => (err, albumsRef, w1)
    else if doctype = "files" then
      match createFile c hdr body dst w with
      | (err, w1) => (err, albumsRef, w1)
    else (none, albumsRef, w)
  else (some Error.UnknownTypeflag, albumsRef, w)

/-- The `for` loop of `untar` over the entries of the archive. -/
def untarLoop {σ X : Type} (c : Collab σ X) (albumsFile referencesFile : String)
    (dst : DirDoc) :
    List TarNext → AlbumReferences → World σ X → Option Error × AlbumReferences × World σ X
  | [], albumsRef, w => (none, albumsRef, w)
  | TarNext.fail err :: _, albumsRef, w => (some err, albumsRef, w)
  | TarNext.entry hdr body :: rest, albumsRef, w =>
    match untarEntry c albumsFile referencesFile dst hdr body albumsRef w with
    | (some err, a1, w1) => (some err, a1, w1)
    | (none, a1, w1) => untarLoop c albumsFile referencesFile dst rest a1 w1

/-- `untar`: `r` is the gzip stream, either refused by `gzip.NewReader` or
opened on a sequence of archive entries. -/
def untar {σ X : Type} (c : Collab σ X) (albumsFile referencesFile : String)
    (r : Except Error (List TarNext)) (dst : DirDoc) (w : World σ X) :
    Option Error × World σ X :=
  match r with
  | .error err => (some err, w)
  | .ok tgz =>
    match untarLoop c albumsFile referencesFile dst tgz [] w with
    | (err, _, w1) => (err, w1)

/-! ## Reading the trace -/

/-- The `CreateFile` attempts of a trace, in order, each with its outcome. -/
def createAttempts {X : Type} : List (Event X) → List (FileDoc × Option Error)
  | [] => []
  | Event.CreateFile doc (.ok _) :: rest => (doc, none) :: createAttempts rest
  | Event.CreateFile doc (.error err) :: rest => (doc, some err) :: createAttempts rest
  | _ :: rest => createAttempts rest

/-- Whether a call is a content copy or a close. -/
def Event.isCopyOrClose {X : Type} : Event X → Bool
  | Event.Copy _ _ _ => true
  | Event.Close _ _ => true
  | _ => false

/-- The documents submitted to `CreateDoc` in a trace, in order, each with the
store's answer. -/
def createdDocs {X : Type} : List (Event X) → List (Doc X × Except Error (String × String))
  | [] => []
  | Event.CreateDoc doc res :: rest => (doc, res) :: createdDocs rest
  | _ :: rest => createdDocs rest

/-- The contacts submitted to `CreateDoc` in a trace, in order. -/
def createdContacts {X : Type} : List (Event X) → List Contact
  | [] => []
  | Event.CreateDoc (Doc.contact k) _ :: rest => k :: createdContacts rest
  | _ :: rest => createdContacts rest

/-- The paths looked up with `FileByPath` in a trace, in order. -/
def lookedUp {X : Type} : List (Event X) → List String
  | [] => []
  | Event.FileByPath path _ :: rest => path :: lookedUp rest
  | _ :: rest => lookedUp rest

/-- The back-references of the files of a store, as last written to the
document store by `UpdateDoc`. -/
def updatedReferences {X : Type} : List (Event X) → List (String × List DocReference)
  | [] => []
  | Event.UpdateDoc (Doc.file f) _ :: rest => (f.DocName, f.ReferencedBy) :: updatedReferences rest
  | _ :: rest => updatedReferences rest

/-- The events of a trace that create a directory or a file, as pairs of the
directory path or of the parent identifier and the leaf name. -/
def placed {X : Type} : List (Event X) → List (String × String)
  | [] => []
  | Event.MkdirAll path _ :: rest => (path, "") :: placed rest
  | Event.CreateFile doc _ :: rest => (doc.DirID, doc.DocName) :: placed rest
  | _ :: rest => placed rest

/-- The shape of every run of `createFile`: the calls it adds to the trace and
the error it returns.  `dir` are the calls resolving the parent directory. -/
inductive CreateFileRun {σ X : Type} (c : Collab σ X) (hdr : Header) (tr : String)
    (dstDoc : DirDoc) (w : World σ X) : Option Error × World σ X → Prop where
  | noDir (err : Error) (s : σ) (dir : List (Event X)) :
      createAttempts dir = [] → (∀ e ∈ dir, e.isCopyOrClose = false) →
      CreateFileRun c hdr tr dstDoc w (some err, ⟨s, w.trace ++ dir⟩)
  | first (doc : FileDoc) (file : File) (cpErr clErr : Option Error) (s : σ)
      (dir : List (Event X)) :
      createAttempts dir = [] → (∀ e ∈ dir, e.isCopyOrClose = false) →
      doc.DocName = path_Base (strings_TrimPrefix hdr.Name "files/") →
      CreateFileRun c hdr tr dstDoc w
        ((match cpErr with
          | some e => some e
          | none => clErr),
         ⟨s, w.trace ++ dir ++ [Event.CreateFile doc (.ok file), Event.Copy file tr cpErr,
            Event.Close file clErr]⟩)
  | retryFails (doc : FileDoc) (err1 err2 : Error) (r : Nat) (s : σ) (dir : List (Event X)) :
      createAttempts dir = [] → (∀ e ∈ dir, e.isCopyOrClose = false) →
      doc.DocName = path_Base (strings_TrimPrefix hdr.Name "files/") →
      CreateFileRun c hdr tr dstDoc w
        (some err2,
         ⟨s, w.trace ++ dir ++ [Event.CreateFile doc (.error err1), Event.RandInt r,
            Event.CreateFile { doc with DocName := conflictName doc.DocName r } (.error err2)]⟩)
  | retry (doc : FileDoc) (err1 : Error) (r : Nat) (file : File) (cpErr clErr : Option Error)
      (s : σ) (dir : List (Event X)) :
      createAttempts dir = [] → (∀ e ∈ dir, e.isCopyOrClose = false) →
      doc.DocName = path_Base (strings_TrimPrefix hdr.Name "files/") →
      CreateFileRun c hdr tr dstDoc w
        ((match cpErr with
          | some e => some e
          | none => clErr),
         ⟨s, w.trace ++ dir ++ [Event.CreateFile doc (.error err1), Event.RandInt r,
            Event.CreateFile { doc with DocName := conflictName doc.DocName r } (.ok file),
            Event.Copy file tr cpErr, Event.Close file clErr]⟩)

/-! ## Notions of the specification -/

/-- The album document the spec describes for a manifest record: the record
with its identifier (`_id`), revision (`_rev`) and type discriminator (`type`)
fields removed, every other field unchanged, under the albums doctype. -/
def albumOfRecord {X : Type} (doctype : String) (record : JSONDoc X) : JSONDoc X :=
  { M := record.M.filter (fun kv => kv.1 ≠ "_id" ∧ kv.1 ≠ "_rev" ∧ kv.1 ≠ "type"),
    Type_ := doctype }

/-- A plain path element: not empty, without `/`, and neither `.` nor `..`. -/
def isPlainName (n : String) : Bool :=
  decide (n.data ≠ [] ∧ '/' ∉ n.data ∧ n.data ≠ ['.'] ∧ n.data ≠ ['.', '.'])

/-- The relative path `n₁/n₂/…/nₖ` of a list of names. -/
def relativePath (names : List String) : String :=
  ⟨List.intercalate ['/'] (names.map String.data)⟩

/-- The rooted path `/n₁/n₂/…/nₖ` of a list of names. -/
def rootedPath (names : List String) : String :=
  ⟨'/' :: List.intercalate ['/'] (names.map String.data)⟩

/-- The input of the loop after some names: each name preceded by `k ≥ 1`
slashes. -/
def slashedNames : List (Nat × List Char) → List Char
  | [] => []
  | (k, n) :: rest => List.replicate k '/' ++ (n ++ slashedNames rest)

/-- The buffer of `path.Clean` after the names are written. -/
def writeNames (rooted : Bool) : List Char → List (List Char) → List Char
  | out, [] => out
  | out, n :: rest =>
    writeNames rooted
      ((if (rooted && out.length != 1) || (!rooted && out.length != 0) then out ++ ['/']
        else out) ++ n) rest

/-- The names of a second path as input of the loop: the first after `k`
slashes, the others after one. -/
def joinItems (k : Nat) : List String → List (Nat × List Char)
  | [] => []
  | q :: ps => (k, q.data) :: ps.map (fun n => (1, n.data))

/-! ## An in-memory instance of the collaborators and example inputs -/

/-- Modelled from the spec: the state of the storage layer and of the document
store (`pkg/vfs`, `pkg/couchdb`, not among the sources) kept in memory:
directories, files, stored documents, the storage errors still to be reported
by `CreateFile`, and the next value of the random source. -/
structure MemStore where
  dirs : List DirDoc
  files : List FileDoc
  docs : List (Doc String)
  faults : List Error
  seed : Nat

/-- Full path of a stored file: its name joined under its directory. -/
def MemStore.pathOf (s : MemStore) (f : FileDoc) : Option String :=
  (s.dirs.find? (fun d => d.DocID = f.DirID)).map (fun d => path_Join [d.Fullpath, f.DocName])

/-- The full paths of the files of a store. -/
def MemStore.paths (s : MemStore) : List (Option String) :=
  s.files.map s.pathOf

/-- The bytes of an entry cut at each newline, as `bufio.ScanLines` does for
lines without carriage return. -/
def scanLinesChars : List Char → List Char → List String
  | [], [] => []
  | [], cur => [String.mk cur.reverse]
  | ch :: rest, cur =>
    if ch = '\n' then String.mk cur.reverse :: scanLinesChars rest []
    else scanLinesChars rest (ch :: cur)

/-- Modelled from the spec: the collaborators over `MemStore`.  Directory
creation is idempotent, `CreateFile` reports a pending storage error if there
is one and a name collision when the directory already holds the name, the
document store assigns identifier and revision, and the decoders answer from
the given tables of well-formed inputs. -/
def memCollab (cards : List (String × Card)) (jsons : List (String × JSONDoc String))
    (refs : List (String × Reference)) : Collab MemStore String where
  PhotosAlbums := "io.cozy.photos.albums"
  DirByPath := fun s path =>
    match s.dirs.find? (fun d => d.Fullpath = path) with
    | some d => .ok d
    | none => .error Error.ErrNotExist
  FileByPath := fun s path =>
    match s.files.find? (fun f => s.pathOf f = some path) with
    | some f => .ok f
    | none => .error Error.ErrNotExist
  MkdirAll := fun s path =>
    match s.dirs.find? (fun d => d.Fullpath = path) with
    | some d => (.ok d, s)
    | none =>
      let d : DirDoc := { DocID := "dir:" ++ path, Fullpath := path }
      (.ok d, { s with dirs := s.dirs ++ [d] })
  CreateFile := fun s doc =>
    match s.faults with
    | err :: rest => (.error err, { s with faults := rest })
    | [] =>
      if s.files.any (fun f => f.DirID = doc.DirID ∧ f.DocName = doc.DocName) then
        (.error Error.ErrExist, s)
      else (.ok s.files.length, { s with files := s.files ++ [doc] })
  Copy := fun s _ _ => (none, s)
  Close := fun s _ => (none, s)
  checkFileName := fun n =>
    if n = "" ∨ '/' ∈ n.data then some (Error.Other "invalid file name") else none
  ExtractMimeAndClassFromFilename := fun _ => ("application/octet-stream", "files")
  CreateDoc := fun s doc =>
    let id := "doc" ++ toString s.docs.length
    (.ok (id, "1-" ++ id), { s with docs := s.docs ++ [doc] })
  UpdateDoc := fun s doc => (none, { s with docs := s.docs ++ [doc] })
  DecodeVCard := fun body =>
    match cards.find? (fun kv => kv.1 = body) with
    | some kv => .ok kv.2
    | none => .error (Error.Other "vcard: invalid syntax")
  UnmarshalJSONDoc := fun line =>
    match jsons.find? (fun kv => kv.1 = line) with
    | some kv => .ok kv.2
    | none => .error (Error.Other "json: invalid syntax")
  UnmarshalReference := fun line =>
    match refs.find? (fun kv => kv.1 = line) with
    | some kv => .ok kv.2
    | none => .error (Error.Other "json: invalid syntax")
  ScanLines := fun body => scanLinesChars body.data []
  Now := fun _ => 0
  RandInt := fun s => (s.seed, { s with seed := s.seed + 1 })

/-- The destination directory `/dst` of the examples. -/
def dstDir : DirDoc := { DocID := "dir:/dst", Fullpath := "/dst" }

/-- A store holding the destination directory and, in it, the files named. -/
def memStoreWith (names : List String) (faults : List Error) : MemStore :=
  { dirs := [dstDir],
    files := names.map (fun n =>
      { DocName := n, DirID := "dir:/dst", ByteSize := 0, Mime := "application/octet-stream",
        Class := "files", CreatedAt := 0, Executable := false }),
    docs := [], faults := faults, seed := 42 }

/-- The root directory `/`. -/
def rootDir : DirDoc := { DocID := "dir:/", Fullpath := "/" }

/-- A store holding the root directory only. -/
def rootStore : MemStore :=
  { dirs := [rootDir], files := [], docs := [], faults := [], seed := 42 }

/-- A regular-file header. -/
def regHeader (name : String) : Header :=
  { Name := name, Typeflag := tar_TypeReg, Size := 10, Mode := 0o644 }

/-- A header of a contact entry. -/
def contactHeader : Header := regHeader "contacts/1.vcf"

/-- The vCard `BEGIN:VCARD / VERSION:2.1 / NOTE:met in Paris / END:VCARD`, which
has neither `N` nor `FN`. -/
def noteVCard : String := "BEGIN:VCARD\nVERSION:2.1\nNOTE:met in Paris\nEND:VCARD\n"

/-- What go-vcard decodes from `noteVCard`: the two properties `VERSION` and
`NOTE`, no name, no address. -/
def vcards : List (String × Card) :=
  [(noteVCard,
    { fields := fun k => if k = "NOTE" then [⟨"met in Paris"⟩]
        else if k = "VERSION" then [⟨"2.1"⟩] else [],
      Name := none, Addresses := [] })]

/-- The manifest record `{"_id":"a1","name":"Trip"}`. -/
def tripLine : String := "\x7b\"_id\":\"a1\",\"name\":\"Trip\"\x7d"

/-- The manifest record `{"_id":"a2","name":"Home"}`. -/
def homeLine : String := "\x7b\"_id\":\"a2\",\"name\":\"Home\"\x7d"

/-- The manifest record `{"_id":"a1","name":"Work"}`, which reuses the
identifier of `tripLine`. -/
def workLine : String := "\x7b\"_id\":\"a1\",\"name\":\"Work\"\x7d"

/-- What `encoding/json` decodes from the three manifest records. -/
def albumRecords : List (String × JSONDoc String) :=
  [(tripLine, ⟨[("_id", .str "a1"), ("name", .str "Trip")], ""⟩),
   (homeLine, ⟨[("_id", .str "a2"), ("name", .str "Home")], ""⟩),
   (workLine, ⟨[("_id", .str "a1"), ("name", .str "Work")], ""⟩)]

/-- The reference record `{"albumid":"a1","filepath":"/missing.jpg"}`. -/
def missingRef : String := "\x7b\"albumid\":\"a1\",\"filepath\":\"/missing.jpg\"\x7d"

/-- The reference record `{"albumid":"zz","filepath":"/photo.jpg"}`. -/
def unknownAlbumRef : String := "\x7b\"albumid\":\"zz\",\"filepath\":\"/photo.jpg\"\x7d"

/-- The reference record `{"albumid":"a1","filepath":"photo.jpg"}`, whose file
path has no leading `/`. -/
def relativeRef : String := "\x7b\"albumid\":\"a1\",\"filepath\":\"photo.jpg\"\x7d"

/-- The reference record `{"albumid":"a1","filepath":"/photo.jpg"}`. -/
def photoRef : String := "\x7b\"albumid\":\"a1\",\"filepath\":\"/photo.jpg\"\x7d"

/-- What `encoding/json` decodes from the reference records. -/
def references : List (String × Reference) :=
  [(missingRef, ⟨"a1", "/missing.jpg"⟩), (unknownAlbumRef, ⟨"zz", "/photo.jpg"⟩),
   (relativeRef, ⟨"a1", "photo.jpg"⟩), (photoRef, ⟨"a1", "/photo.jpg"⟩)]

/-- An archive with the file `files/photo.jpg`, the albums manifest made of the
record `a1` and a references entry made of one line. -/
def photoArchive (refLine : String) : List TarNext :=
  [TarNext.entry (regHeader "files/photo.jpg") "0123456789",
   TarNext.entry (regHeader "albums/albums.json") tripLine,
   TarNext.entry (regHeader "albums/references.json") refLine]

/-! ## Runs of `createFile` -/

theorem createFile_dirDoc_trace {σ X : Type} (c : Collab σ X) (dirname : String)
    (w : World σ X) :
    ∃ dir, (createFile_dirDoc c dirname w).2.trace = w.trace ++ dir ∧
      createAttempts dir = [] ∧ ∀ e ∈ dir, e.isCopyOrClose = false := by
  unfold createFile_dirDoc fs_DirByPath vfs_MkdirAll
  cases c.DirByPath w.st dirname with
  | ok d => exact ⟨[Event.DirByPath dirname true], rfl, rfl, by simp [Event.isCopyOrClose]⟩
  | error e =>
    simp only [World.step]
    rcases c.MkdirAll w.st dirname with ⟨r | r, s⟩
    · exact ⟨[Event.DirByPath dirname false, Event.MkdirAll dirname (some r)],
        by simp, rfl, by simp [Event.isCopyOrClose]⟩
    · exact ⟨[Event.DirByPath dirname false, Event.MkdirAll dirname none],
        by simp, rfl, by simp [Event.isCopyOrClose]⟩

theorem createFile_file_cases {σ X : Type} (c : Collab σ X) (doc : FileDoc) (w : World σ X) :
    (∃ file s, createFile_file c doc w
        = (.ok file, ⟨s, w.trace ++ [Event.CreateFile doc (.ok file)]⟩)) ∨
    (∃ err1 r file s, createFile_file c doc w
        = (.ok file, ⟨s, w.trace ++ [Event.CreateFile doc (.error err1), Event.RandInt r,
            Event.CreateFile { doc with DocName := conflictName doc.DocName r } (.ok file)]⟩)) ∨
    (∃ err1 r err2 s, createFile_file c doc w
        = (.error err2, ⟨s, w.trace ++ [Event.CreateFile doc (.error err1), Event.RandInt r,
            Event.CreateFile { doc with DocName := conflictName doc.DocName r }
              (.error err2)]⟩)) := by
  unfold createFile_file fs_CreateFile rand_Int
  rcases h1 : c.CreateFile w.st doc with ⟨e1 | f, s1⟩
  · rcases hr : c.RandInt s1 with ⟨r, s2⟩
    rcases h2 : c.CreateFile s2 { doc with DocName := conflictName doc.DocName r } with
      ⟨e2 | f, s3⟩
    · exact Or.inr (Or.inr ⟨e1, r, e2, s3, by simp [World.step, hr, h2]⟩)
    · exact Or.inr (Or.inl ⟨e1, r, f, s3, by simp [World.step, hr, h2]⟩)
  · exact Or.inl ⟨f, s1, rfl⟩

theorem createFile_copy_eq {σ X : Type} (c : Collab σ X) (file : File) (tr : String)
    (w : World σ X) :
    ∃ cpErr clErr s, createFile_copy c file tr w =
      ((match cpErr with
        | some e => some e
        | none => clErr),
       ⟨s, w.trace ++ [Event.Copy file tr cpErr, Event.Close file clErr]⟩) := by
  unfold createFile_copy io_Copy file_Close
  rcases hcp : c.Copy w.st file tr with ⟨cp, s1⟩
  rcases hcl : c.Close s1 file with ⟨cl, s2⟩
  refine ⟨cp, cl, s2, ?_⟩
  cases cp <;> simp [World.step, hcl]

theorem createFile_run {σ X : Type} (c : Collab σ X) (hdr : Header) (tr : String)
    (dstDoc : DirDoc) (w : World σ X) :
    CreateFileRun c hdr tr dstDoc w (createFile c hdr tr dstDoc w) := by
  unfold createFile
  simp only []
  obtain ⟨dir, hdir, hdir1, hdir2⟩ := createFile_dirDoc_trace c
    (path_Join [dstDoc.Fullpath, path_Dir (strings_TrimPrefix hdr.Name "files/")]) w
  split
  · next err w1 heq =>
    rw [heq] at hdir
    obtain ⟨s1, t1⟩ := w1
    simp only at hdir
    subst hdir
    exact CreateFileRun.noDir err s1 dir hdir1 hdir2
  · next dirDoc w1 heq =>
    rw [heq] at hdir
    obtain ⟨s1, t1⟩ := w1
    simp only at hdir
    subst hdir
    split
    · next err hnew =>
      exact CreateFileRun.noDir err s1 dir hdir1 hdir2
    · next fileDoc hnew =>
      have hname : fileDoc.DocName = path_Base (strings_TrimPrefix hdr.Name "files/") := by
        unfold vfs_NewFileDoc at hnew
        split at hnew
        · cases hnew
        · cases hnew; rfl
      rcases createFile_file_cases c fileDoc ⟨s1, w.trace ++ dir⟩ with
        ⟨file, s, h⟩ | ⟨e1, r, file, s, h⟩ | ⟨e1, r, e2, s, h⟩
      · rw [h]
        simp only []
        obtain ⟨cp, cl, s', hc⟩ := createFile_copy_eq c file tr
          ⟨s, w.trace ++ dir ++ [Event.CreateFile fileDoc (.ok file)]⟩
        rw [hc]
        have := @CreateFileRun.first σ X c hdr tr dstDoc w fileDoc file cp cl s' dir hdir1
          hdir2 hname
        simpa [List.append_assoc] using this
      · rw [h]
        simp only []
        obtain ⟨cp, cl, s', hc⟩ := createFile_copy_eq c file tr
          ⟨s, w.trace ++ dir ++ [Event.CreateFile fileDoc (.error e1), Event.RandInt r,
            Event.CreateFile { fileDoc with DocName := conflictName fileDoc.DocName r } (.ok file)]⟩
        rw [hc]
        have := @CreateFileRun.retry σ X c hdr tr dstDoc w fileDoc e1 r file cp cl s' dir hdir1
          hdir2 hname
        simpa [List.append_assoc] using this
      · rw [h]
        simp only []
        exact CreateFileRun.retryFails fileDoc e1 e2 r s dir hdir1 hdir2 hname

theorem createAttempts_append {X : Type} (l1 l2 : List (Event X)) :
    createAttempts (l1 ++ l2) = createAttempts l1 ++ createAttempts l2 := by
  induction l1 with
  | nil => rfl
  | cons e rest ih =>
    cases e with
    | CreateFile doc res => cases res <;> simp [createAttempts, ih]
    | _ => simp [createAttempts, ih]

/-! ## Facts on `path.Base`, `path.Ext` and the conflict name -/

theorem baseChars_slash (p : List Char) : '/' ∉ baseChars p ∨ baseChars p = ['/'] := by
  unfold baseChars
  by_cases hp : p = []
  · left; simp [hp]
  · simp only [hp, if_false]
    split
    · right; rfl
    · left
      intro hmem
      rw [List.mem_reverse] at hmem
      have := List.mem_takeWhile_imp hmem
      simp at this

theorem extLoop_skip (xs rest acc : List Char) (h : ∀ ch ∈ xs, ch ≠ '/' ∧ ch ≠ '.') :
    extLoop (xs ++ rest) acc = extLoop rest (xs.reverse ++ acc) := by
  induction xs generalizing acc with
  | nil => rfl
  | cons x xs ih =>
    have hx := h x (List.mem_cons_self _ _)
    have hxs : ∀ ch ∈ xs, ch ≠ '/' ∧ ch ≠ '.' := fun ch hc => h ch (List.mem_cons_of_mem _ hc)
    have hstep : extLoop (x :: (xs ++ rest)) acc = extLoop (xs ++ rest) (x :: acc) := by
      simp only [extLoop, hx.1, hx.2, if_false]
    rw [List.cons_append, hstep, ih (x :: acc) hxs]
    simp

theorem extLoop_nil_acc (acc : List Char) : extLoop [] acc = [] := rfl

/-- The extension of a name without `/` starts at its last dot and is empty
when the name has no dot. -/
theorem extChars_spec (f : List Char) (hf : '/' ∉ f) :
    ('.' ∉ f ∧ extLoop f.reverse [] = []) ∨
    (∃ b e, f = b ++ '.' :: e ∧ '.' ∉ e ∧ extLoop f.reverse [] = '.' :: e) := by
  by_cases hdot : '.' ∈ f
  · right
    have hr : '.' ∈ f.reverse := List.mem_reverse.2 hdot
    obtain ⟨as, bs, hsplit, hnot⟩ := List.eq_append_cons_of_mem hr
    have hfeq : f = bs.reverse ++ '.' :: as.reverse := by
      have := congrArg List.reverse hsplit
      simpa using this
    refine ⟨bs.reverse, as.reverse, hfeq, by simpa using hnot, ?_⟩
    rw [hsplit]
    have hskip : ∀ ch ∈ as, ch ≠ '/' ∧ ch ≠ '.' := by
      intro ch hc
      refine ⟨?_, ?_⟩
      · rintro rfl
        apply hf
        rw [hfeq]
        simp [hc]
      · rintro rfl
        exact hnot hc
    rw [extLoop_skip as _ [] hskip]
    simp [extLoop]
  · left
    refine ⟨hdot, ?_⟩
    have hskip : ∀ ch ∈ f.reverse, ch ≠ '/' ∧ ch ≠ '.' := by
      intro ch hc
      rw [List.mem_reverse] at hc
      exact ⟨fun h => hf (h ▸ hc), fun h => hdot (h ▸ hc)⟩
    have := extLoop_skip f.reverse [] [] hskip
    simpa [extLoop] using this

theorem digitChar_isDigit (m : Nat) (hm : m < 10) :
    (Nat.digitChar m).isDigit = true ∧ Nat.digitChar m ≠ '/' ∧ Nat.digitChar m ≠ '.' := by
  interval_cases m <;> decide

theorem toDigitsCore_digits (fuel n : Nat) (ds : List Char)
    (hds : ∀ ch ∈ ds, ch.isDigit = true ∧ ch ≠ '/' ∧ ch ≠ '.') :
    ∀ ch ∈ Nat.toDigitsCore 10 fuel n ds, ch.isDigit = true ∧ ch ≠ '/' ∧ ch ≠ '.' := by
  induction fuel generalizing n ds with
  | zero => simpa [Nat.toDigitsCore] using hds
  | succ fuel ih =>
    have hd := digitChar_isDigit (n % 10) (Nat.mod_lt _ (by decide))
    have hcons : ∀ ch ∈ Nat.digitChar (n % 10) :: ds,
        ch.isDigit = true ∧ ch ≠ '/' ∧ ch ≠ '.' := by
      intro ch hc
      rcases List.mem_cons.1 hc with h | h
      · subst h; exact hd
      · exact hds ch h
    simp only [Nat.toDigitsCore]
    split
    · exact hcons
    · exact ih _ _ hcons

/-- The decimal text of a natural number is made of digits. -/
theorem toString_digits (r : Nat) :
    ∀ ch ∈ (toString r).data, ch.isDigit = true ∧ ch ≠ '/' ∧ ch ≠ '.' := by
  have : (toString r).data = Nat.toDigitsCore 10 (r + 1) r [] := rfl
  rw [this]
  exact toDigitsCore_digits _ _ _ (by simp)

/-- The middle part of the conflict name holds neither `/` nor `.`. -/
theorem conflict_mid (r : Nat) :
    ∀ ch ∈ ("-conflict-".data ++ (toString r).data).reverse, ch ≠ '/' ∧ ch ≠ '.' := by
  intro ch hc
  rw [List.mem_reverse, List.mem_append] at hc
  rcases hc with h | h
  · revert ch
    decide
  · exact (toString_digits r ch h).2

theorem conflictName_data (f : String) (r : Nat) (b e : List Char)
    (hf : f.data = b ++ e) (hext : extLoop f.data.reverse [] = e) :
    (conflictName f r).data = b ++ ("-conflict-".data ++ (toString r).data) ++ e := by
  have h1 : (conflictName f r).data
      = f.data.take (f.data.length - (extLoop f.data.reverse []).length)
          ++ "-conflict-".data ++ (toString r).data ++ extLoop f.data.reverse [] := by
    simp [conflictName, path_Ext]
  rw [h1, hext, hf]
  have h2 : (b ++ e).length - e.length = b.length := by simp
  rw [h2, List.take_left']
  · simp
  · rfl

theorem path_Ext_of_data (f : String) (l e : List Char) (hl : f.data.reverse = l)
    (h : extLoop l [] = e) : path_Ext f = ⟨e⟩ := by
  unfold path_Ext
  rw [hl, h]

/-- The conflict name of a leaf name: the name with `-conflict-` and the
decimal digits of `r` put before its extension, the extension kept. -/
theorem conflictName_spec (f : String) (r : Nat) (hf : '/' ∉ f.data ∨ f.data = ['/']) :
    ∃ base ext : String, f = base ++ ext ∧
      ((ext = "" ∧ '.' ∉ f.data) ∨ ∃ e, ext.data = '.' :: e ∧ '.' ∉ e) ∧
      conflictName f r = base ++ "-conflict-" ++ toString r ++ ext ∧
      path_Ext f = ext ∧ path_Ext (conflictName f r) = ext := by
  obtain ⟨fd⟩ := f
  simp only at hf
  have hmid := conflict_mid r
  rcases hf with hf | hf
  · rcases extChars_spec fd hf with ⟨hdot, hext⟩ | ⟨b, e, hfeq, hdot, hext⟩
    · have hname := conflictName_data ⟨fd⟩ r fd [] (by simp) hext
      refine ⟨⟨fd⟩, "", by apply String.ext; simp, Or.inl ⟨rfl, hdot⟩, ?_,
        path_Ext_of_data _ _ _ rfl hext, ?_⟩
      · apply String.ext
        rw [hname]
        simp
      · have hskip : ∀ ch ∈ ("-conflict-".data ++ (toString r).data).reverse ++ fd.reverse,
            ch ≠ '/' ∧ ch ≠ '.' := by
          intro ch hc
          rcases List.mem_append.1 hc with h | h
          · exact hmid ch h
          · rw [List.mem_reverse] at h
            exact ⟨fun h' => hf (h' ▸ h), fun h' => hdot (h' ▸ h)⟩
        refine path_Ext_of_data _
          ((("-conflict-".data ++ (toString r).data).reverse ++ fd.reverse) ++ []) _ ?_ ?_
        · rw [hname]; simp
        · rw [extLoop_skip _ [] [] hskip]
          rfl
    · have hname := conflictName_data ⟨fd⟩ r b ('.' :: e) hfeq hext
      have hne : ∀ ch ∈ e.reverse, ch ≠ '/' ∧ ch ≠ '.' := by
        intro ch hc
        rw [List.mem_reverse] at hc
        refine ⟨?_, fun h' => hdot (h' ▸ hc)⟩
        rintro rfl
        exact hf (by rw [hfeq]; simp [hc])
      refine ⟨⟨b⟩, ⟨'.' :: e⟩, by apply String.ext; simp [hfeq], Or.inr ⟨e, rfl, hdot⟩, ?_,
        path_Ext_of_data _ _ _ rfl hext, ?_⟩
      · apply String.ext
        rw [hname]
        simp
      · refine path_Ext_of_data _
          (e.reverse ++ ('.' :: (("-conflict-".data ++ (toString r).data).reverse
                ++ b.reverse))) _ ?_ ?_
        · rw [hname]; simp
        · rw [extLoop_skip _ _ [] hne]
          simp [extLoop]
  · have hext : extLoop (String.mk fd).data.reverse [] = [] := by
      subst hf
      decide
    have hname := conflictName_data ⟨fd⟩ r fd [] (by simp) hext
    refine ⟨⟨fd⟩, "", by apply String.ext; simp, Or.inl ⟨rfl, by subst hf; decide⟩, ?_,
      path_Ext_of_data _ _ _ rfl hext, ?_⟩
    · apply String.ext
      rw [hname]
      simp
    · refine path_Ext_of_data _
        (("-conflict-".data ++ (toString r).data).reverse ++ ['/']) _ ?_ ?_
      · rw [hname, hf]; simp
      · rw [extLoop_skip _ _ [] hmid]
        simp [extLoop]

/-! ## Claims on `createFile` -/

/-- C10: every run of `createFile` has one of two shapes.  Either every create
attempt failed: then there is neither a copy nor a close and the result is an
error.  Or a create attempt succeeded: then the calls that follow the creation
are exactly one copy of the entry content into the created file and then one
close of that file, nothing else, whatever the outcomes of the two; the result
is the copy error when the copy failed (also when the close failed too), the
close error when only the close failed, and success exactly when both
succeeded. -/
theorem createFile_copy_then_close {σ X : Type} (c : Collab σ X) (hdr : Header)
    (tr : String) (dstDoc : DirDoc) (w : World σ X) :
    (∃ pre err, (createFile c hdr tr dstDoc w).2.trace = w.trace ++ pre ∧
        (∀ e ∈ pre, e.isCopyOrClose = false) ∧
        (∀ a ∈ createAttempts pre, a.2 ≠ none) ∧
        (createFile c hdr tr dstDoc w).1 = some err) ∨
    (∃ pre doc file cpErr clErr,
        (createFile c hdr tr dstDoc w).2.trace
          = w.trace ++ pre ++ [Event.CreateFile doc (.ok file), Event.Copy file tr cpErr,
              Event.Close file clErr] ∧
        (∀ e ∈ pre, e.isCopyOrClose = false) ∧
        (∀ a ∈ createAttempts pre, a.2 ≠ none) ∧
        (cpErr ≠ none → (createFile c hdr tr dstDoc w).1 = cpErr) ∧
        (cpErr = none → (createFile c hdr tr dstDoc w).1 = clErr) ∧
        ((createFile c hdr tr dstDoc w).1 = none ↔ cpErr = none ∧ clErr = none)) := by
  have hrun := createFile_run c hdr tr dstDoc w
  generalize createFile c hdr tr dstDoc w = res at hrun ⊢
  cases hrun with
  | noDir err s dir h1 h2 =>
    exact Or.inl ⟨dir, err, rfl, h2, by simp [h1], rfl⟩
  | first doc file cp cl s dir h1 h2 h3 =>
    refine Or.inr ⟨dir, doc, file, cp, cl, rfl, h2, by simp [h1], ?_, ?_, ?_⟩
    · cases cp <;> simp
    · rintro rfl; rfl
    · cases cp <;> simp
  | retryFails doc e1 e2 r s dir h1 h2 h3 =>
    refine Or.inl ⟨dir ++ [Event.CreateFile doc (.error e1), Event.RandInt r,
      Event.CreateFile { doc with DocName := conflictName doc.DocName r } (.error e2)], e2,
      by simp, ?_, ?_, rfl⟩
    · intro e he
      rcases List.mem_append.1 he with h | h
      · exact h2 e h
      · simp at h; rcases h with h | h | h <;> subst h <;> rfl
    · intro a ha
      simp only [createAttempts_append, h1, createAttempts, List.nil_append, List.mem_cons,
        List.mem_singleton, List.not_mem_nil, or_false] at ha
      rcases ha with rfl | rfl <;> simp
  | retry doc e1 r file cp cl s dir h1 h2 h3 =>
    refine Or.inr ⟨dir ++ [Event.CreateFile doc (.error e1), Event.RandInt r],
      { doc with DocName := conflictName doc.DocName r }, file, cp, cl,
      by simp, ?_, ?_, ?_, ?_, ?_⟩
    · intro e he
      rcases List.mem_append.1 he with h | h
      · exact h2 e h
      · simp at h; rcases h with h | h <;> subst h <;> rfl
    · intro a ha
      simp only [createAttempts_append, h1, createAttempts, List.nil_append, List.mem_cons,
        List.mem_singleton, List.not_mem_nil, or_false] at ha
      subst ha
      simp
    · cases cp <;> simp
    · rintro rfl; rfl
    · cases cp <;> simp

/-- The create attempts of every run of `createFile`: none (the parent directory
or the file metadata failed), or one that succeeded, or two, the first of which
failed and the second of which is made under the conflict name and decides the
result; never more than two. -/
theorem createFile_attempts {σ X : Type} (c : Collab σ X) (hdr : Header) (tr : String)
    (dstDoc : DirDoc) (w : World σ X) :
    ∃ added, (createFile c hdr tr dstDoc w).2.trace = w.trace ++ added ∧
      (createAttempts added).length ≤ 2 ∧
      (createAttempts added = [] ∨
       (∃ doc, createAttempts added = [(doc, none)]) ∨
       (∃ doc err1 r res2, createAttempts added =
          [(doc, some err1), ({ doc with DocName := conflictName doc.DocName r }, res2)] ∧
          ((createFile c hdr tr dstDoc w).1 = none → res2 = none) ∧
          (∀ err2, res2 = some err2 → (createFile c hdr tr dstDoc w).1 = some err2))) := by
  have hrun := createFile_run c hdr tr dstDoc w
  generalize createFile c hdr tr dstDoc w = res at hrun ⊢
  cases hrun with
  | noDir err s dir h1 h2 => exact ⟨dir, rfl, by simp [h1], Or.inl h1⟩
  | first doc file cp cl s dir h1 h2 h3 =>
    refine ⟨dir ++ [Event.CreateFile doc (.ok file), Event.Copy file tr cp, Event.Close file cl],
      by simp, ?_, Or.inr (Or.inl ⟨doc, ?_⟩)⟩ <;>
    simp [createAttempts_append, h1, createAttempts]
  | retryFails doc e1 e2 r s dir h1 h2 h3 =>
    refine ⟨dir ++ [Event.CreateFile doc (.error e1), Event.RandInt r,
      Event.CreateFile { doc with DocName := conflictName doc.DocName r } (.error e2)],
      by simp, ?_, Or.inr (Or.inr ⟨doc, e1, r, some e2, ?_, ?_, ?_⟩)⟩
    · simp [createAttempts_append, h1, createAttempts]
    · simp [createAttempts_append, h1, createAttempts]
    · simp
    · simp
  | retry doc e1 r file cp cl s dir h1 h2 h3 =>
    refine ⟨dir ++ [Event.CreateFile doc (.error e1), Event.RandInt r,
      Event.CreateFile { doc with DocName := conflictName doc.DocName r } (.ok file),
      Event.Copy file tr cp, Event.Close file cl],
      by simp, ?_, Or.inr (Or.inr ⟨doc, e1, r, none, ?_, ?_, ?_⟩)⟩
    · simp [createAttempts_append, h1, createAttempts]
    · simp [createAttempts_append, h1, createAttempts]
    · simp
    · simp

/-- C9 at a first create attempt refused with `no space left on device`, a
storage error that is not a name collision: `createFile` does not return that
error; it makes a second attempt under the conflict name `a-conflict-42.txt`
and, that one succeeding, returns success. -/
theorem createFile_retries_any_error :
    (createAttempts
        (createFile (memCollab [] [] []) (regHeader "files/a.txt") "0123456789" dstDir
          ⟨memStoreWith [] [Error.Other "no space left on device"], []⟩).2.trace).map
        (fun a => (a.1.DocName, a.2))
      = [("a.txt", some (Error.Other "no space left on device")),
         ("a-conflict-42.txt", none)] ∧
    Error.Other "no space left on device" ≠ Error.ErrExist ∧
    (createFile (memCollab [] [] []) (regHeader "files/a.txt") "0123456789" dstDir
      ⟨memStoreWith [] [Error.Other "no space left on device"], []⟩).1 = none := by
  refine ⟨by rfl, by decide, by rfl⟩

/-- C7: when the first create attempt of `createFile` collides with an existing
file and the retry succeeds, the calls after the parent directory is resolved
are the refused attempt, the draw of `r`, one successful create, then the copy
and the close of the new file, so exactly one file is created and no call
touches the existing one; the new document is the first one renamed to
`base ++ "-conflict-" ++ digits of r ++ ext`, where the leaf name is
`base ++ ext` and `ext` starts at its last dot (empty when it has none); the
new name has the extension of the leaf name. -/
theorem createFile_conflict_rename {σ X : Type} (c : Collab σ X) (hdr : Header)
    (tr : String) (dstDoc : DirDoc) (w : World σ X) (doc1 doc2 : FileDoc)
    (h : createAttempts (createFile c hdr tr dstDoc w).2.trace
          = createAttempts w.trace ++ [(doc1, some Error.ErrExist), (doc2, none)]) :
    ∃ (r : Nat) (base ext : String) (dir : List (Event X)) (file : File)
        (cpErr clErr : Option Error),
      (createFile c hdr tr dstDoc w).2.trace
        = w.trace ++ dir ++ [Event.CreateFile doc1 (.error Error.ErrExist), Event.RandInt r,
            Event.CreateFile doc2 (.ok file), Event.Copy file tr cpErr, Event.Close file clErr] ∧
      createAttempts dir = [] ∧
      doc1.DocName = path_Base (strings_TrimPrefix hdr.Name "files/") ∧
      doc1.DocName = base ++ ext ∧
      ((ext = "" ∧ '.' ∉ doc1.DocName.data) ∨ ∃ e, ext.data = '.' :: e ∧ '.' ∉ e) ∧
      doc2 = { doc1 with DocName := base ++ "-conflict-" ++ toString r ++ ext } ∧
      (∀ ch ∈ (toString r).data, ch.isDigit = true) ∧
      path_Ext doc1.DocName = ext ∧ path_Ext doc2.DocName = ext := by
  have hrun := createFile_run c hdr tr dstDoc w
  generalize createFile c hdr tr dstDoc w = res at hrun h
  cases hrun with
  | noDir err s dir h1 h2 =>
    simp [createAttempts_append, h1] at h
  | first doc file cp cl s dir h1 h2 h3 =>
    simp [createAttempts_append, h1, createAttempts] at h
  | retryFails doc e1 e2 r s dir h1 h2 h3 =>
    simp [createAttempts_append, h1, createAttempts] at h
  | retry doc e1 r file cp cl s dir h1 h2 h3 =>
    simp only [createAttempts_append, h1, createAttempts, List.append_nil, List.append_assoc,
      List.append_cancel_left_eq, List.cons.injEq, Prod.mk.injEq, Option.some.injEq,
      and_true] at h
    simp only [List.nil_append, List.cons.injEq, Prod.mk.injEq, Option.some.injEq,
      and_true] at h
    obtain ⟨⟨hd1, he1⟩, hd2⟩ := h
    subst hd1 he1
    have hslash : '/' ∉ doc.DocName.data ∨ doc.DocName.data = ['/'] := by
      rw [h3]
      exact baseChars_slash _
    obtain ⟨base, ext, hsplit, hdot, hname, hext1, hext2⟩ := conflictName_spec doc.DocName r hslash
    refine ⟨r, base, ext, dir, file, cp, cl, ?_, h1, h3, hsplit, hdot, ?_,
      fun ch hc => (toString_digits r ch hc).1, hext1, ?_⟩
    · rw [← hd2]
    · rw [← hd2, hname]
    · rw [← hd2]
      exact hext2

/-- C7 at `files/a.txt` imported into a directory that already holds `a.txt`,
the random source giving 42: the store ends with `a.txt` and
`a-conflict-42.txt`. -/
theorem createFile_conflict_rename_witness :
    ((createFile (memCollab [] [] []) (regHeader "files/a.txt") "0123456789" dstDir
        ⟨memStoreWith ["a.txt"] [], []⟩).2.st.files.map (fun f => f.DocName)
      = ["a.txt", "a-conflict-42.txt"]) ∧
    ∃ (r : Nat) (base ext : String) (dir : List (Event String)) (file : File)
        (cpErr clErr : Option Error),
      (createFile (memCollab [] [] []) (regHeader "files/a.txt") "0123456789" dstDir
          ⟨memStoreWith ["a.txt"] [], []⟩).2.trace
        = [] ++ dir ++ [Event.CreateFile
              { DocName := "a.txt", DirID := "dir:/dst", ByteSize := 10,
                Mime := "application/octet-stream", Class := "files", CreatedAt := 0,
                Executable := false } (.error Error.ErrExist), Event.RandInt r,
            Event.CreateFile
              { DocName := "a-conflict-42.txt", DirID := "dir:/dst", ByteSize := 10,
                Mime := "application/octet-stream", Class := "files", CreatedAt := 0,
                Executable := false } (.ok file),
            Event.Copy file "0123456789" cpErr, Event.Close file clErr] ∧
      createAttempts dir = [] ∧
      "a.txt" = path_Base (strings_TrimPrefix "files/a.txt" "files/") ∧
      "a.txt" = base ++ ext ∧
      ((ext = "" ∧ '.' ∉ "a.txt".data) ∨ ∃ e, ext.data = '.' :: e ∧ '.' ∉ e) ∧
      ({ DocName := "a-conflict-42.txt", DirID := "dir:/dst", ByteSize := 10,
         Mime := "application/octet-stream", Class := "files", CreatedAt := 0,
         Executable := false } : FileDoc)
        = { DocName := base ++ "-conflict-" ++ toString r ++ ext, DirID := "dir:/dst",
            ByteSize := 10, Mime := "application/octet-stream", Class := "files",
            CreatedAt := 0, Executable := false } ∧
      (∀ ch ∈ (toString r).data, ch.isDigit = true) ∧
      path_Ext "a.txt" = ext ∧ path_Ext "a-conflict-42.txt" = ext :=
  ⟨by rfl,
   createFile_conflict_rename (memCollab [] [] []) (regHeader "files/a.txt") "0123456789"
    dstDir ⟨memStoreWith ["a.txt"] [], []⟩
    { DocName := "a.txt", DirID := "dir:/dst", ByteSize := 10,
      Mime := "application/octet-stream", Class := "files", CreatedAt := 0,
      Executable := false }
    { DocName := "a-conflict-42.txt", DirID := "dir:/dst", ByteSize := 10,
      Mime := "application/octet-stream", Class := "files", CreatedAt := 0,
      Executable := false }
    (by rfl)⟩

/-! ## Claims on the dispatcher -/

theorem splitNChars_two_of_mem (a b : List Char) (ha : '/' ∉ a) :
    splitNChars '/' 2 (a ++ '/' :: b) = [a, b] := by
  have hpos : ∀ x ∈ a, (fun ch : Char => decide (ch ≠ '/')) x = true := by
    intro x hx
    simp only [decide_eq_true_eq]
    rintro rfl
    exact ha hx
  simp only [splitNChars, List.mem_append, List.mem_cons, true_or, or_true, if_true]
  rw [List.takeWhile_append_of_pos hpos, List.dropWhile_append_of_pos hpos]
  simp [splitNChars]

theorem splitNChars_two_of_not_mem (s : List Char) (hs : '/' ∉ s) :
    splitNChars '/' 2 s = [s] := by
  simp [splitNChars, hs]

theorem untarLoop_unknown {σ X : Type} (c : Collab σ X) (albumsFile referencesFile : String)
    (dst : DirDoc) (hdr : Header) (body : String)
    (h : ∀ (albumsRef : AlbumReferences) (w : World σ X),
      (untarEntry c albumsFile referencesFile dst hdr body albumsRef w).1 ≠ none)
    (pre rest : List TarNext) (albumsRef : AlbumReferences) (w : World σ X) :
    (untarLoop c albumsFile referencesFile dst (pre ++ TarNext.entry hdr body :: rest)
      albumsRef w).1 ≠ none := by
  induction pre generalizing albumsRef w with
  | nil =>
    have h0 := h albumsRef w
    simp only [List.nil_append, untarLoop]
    split
    · simp
    · next a1 w1 heq => rw [heq] at h0; exact absurd rfl h0
  | cons e pre ih =>
    cases e with
    | fail err => simp [untarLoop]
    | entry hdr0 body0 =>
      simp only [List.cons_append, untarLoop]
      split
      · simp
      · exact ih _ _

/-- C1: the `(doctype, name)` pair of an entry is its cleaned path split on the
first `/` (both empty when it has none), and the action of `untar` on the
entry is fixed by the entry kind and that pair: a directory under `files`
creates `join(destination, name)`, any other directory does nothing; a
regular file goes to `createAlbums`, `fillAlbums`, `createContact` or
`createFile` according to the pair and is skipped without any call otherwise;
an entry of another kind is refused, and an archive holding one makes the
whole import fail. -/
theorem untar_dispatch {σ X : Type} (c : Collab σ X) (albumsFile referencesFile : String)
    (hne : albumsFile ≠ referencesFile) (dst : DirDoc) (hdr : Header) (body : String)
    (albumsRef : AlbumReferences) (w : World σ X) :
    (∀ a b : String, path_Clean hdr.Name = a ++ "/" ++ b → '/' ∉ a.data →
        untarParts hdr.Name = (a, b)) ∧
    ('/' ∉ (path_Clean hdr.Name).data → untarParts hdr.Name = ("", "")) ∧
    (hdr.Typeflag = tar_TypeDir → (untarParts hdr.Name).1 = "files" →
      untarEntry c albumsFile referencesFile dst hdr body albumsRef w =
        match vfs_MkdirAll c (path_Join [dst.Fullpath, (untarParts hdr.Name).2]) w with
        | (.error err, w1) => (some err, albumsRef, w1)
        | (.ok _, w1) => (none, albumsRef, w1)) ∧
    (hdr.Typeflag = tar_TypeDir → (untarParts hdr.Name).1 ≠ "files" →
      untarEntry c albumsFile referencesFile dst hdr body albumsRef w = (none, albumsRef, w)) ∧
    (hdr.Typeflag = tar_TypeReg → (untarParts hdr.Name).1 = "albums" →
      (untarParts hdr.Name).2 = albumsFile →
      untarEntry c albumsFile referencesFile dst hdr body albumsRef w = createAlbums c body albumsRef w) ∧
    (hdr.Typeflag = tar_TypeReg → (untarParts hdr.Name).1 = "albums" →
      (untarParts hdr.Name).2 = referencesFile →
      untarEntry c albumsFile referencesFile dst hdr body albumsRef w = fillAlbums c body dst albumsRef w) ∧
    (hdr.Typeflag = tar_TypeReg → (untarParts hdr.Name).1 = "contacts" →
      untarEntry c albumsFile referencesFile dst hdr body albumsRef w =
        ((createContact c hdr body w).1, albumsRef, (createContact c hdr body w).2)) ∧
    (hdr.Typeflag = tar_TypeReg → (untarParts hdr.Name).1 = "files" →
      untarEntry c albumsFile referencesFile dst hdr body albumsRef w =
        ((createFile c hdr body dst w).1, albumsRef, (createFile c hdr body dst w).2)) ∧
    (hdr.Typeflag = tar_TypeReg → (untarParts hdr.Name).1 ≠ "contacts" →
      (untarParts hdr.Name).1 ≠ "files" →
      ((untarParts hdr.Name).1 = "albums" → (untarParts hdr.Name).2 ≠ albumsFile ∧
        (untarParts hdr.Name).2 ≠ referencesFile) →
      untarEntry c albumsFile referencesFile dst hdr body albumsRef w = (none, albumsRef, w)) ∧
    (hdr.Typeflag ≠ tar_TypeDir → hdr.Typeflag ≠ tar_TypeReg →
      untarEntry c albumsFile referencesFile dst hdr body albumsRef w = (some Error.UnknownTypeflag, albumsRef, w) ∧
      ∀ pre rest : List TarNext,
        (untar c albumsFile referencesFile (.ok (pre ++ TarNext.entry hdr body :: rest)) dst w).1 ≠ none) := by
  refine ⟨?_, ?_, ?_, ?_, ?_, ?_, ?_, ?_, ?_, ?_⟩
  · intro a b hab ha
    have hd : (path_Clean hdr.Name).data = a.data ++ '/' :: b.data := by
      rw [hab]; simp
    simp [untarParts, strings_SplitN_slash, hd, splitNChars_two_of_mem _ _ ha]
  · intro hs
    simp [untarParts, strings_SplitN_slash, splitNChars_two_of_not_mem _ hs]
  · intro ht hd
    simp only [untarEntry, ht, hd, if_true]
  · intro ht hd
    simp [untarEntry, ht, hd]
  · intro ht hd hn
    have : tar_TypeReg ≠ tar_TypeDir := by decide
    simp [untarEntry, ht, hd, hn, this]
  · intro ht hd hn
    have : tar_TypeReg ≠ tar_TypeDir := by decide
    have hne2 : ¬ referencesFile = albumsFile := fun h => hne h.symm
    simp [untarEntry, ht, hd, hn, this, hne2]
  · intro ht hd
    have : tar_TypeReg ≠ tar_TypeDir := by decide
    simp [untarEntry, ht, hd, this]
  · intro ht hd
    have : tar_TypeReg ≠ tar_TypeDir := by decide
    simp [untarEntry, ht, hd, this]
  · intro ht hc hf ha
    have : tar_TypeReg ≠ tar_TypeDir := by decide
    by_cases hal : (untarParts hdr.Name).1 = "albums"
    · obtain ⟨h1, h2⟩ := ha hal
      simp [untarEntry, ht, hc, hf, this, h1, h2]
    · simp [untarEntry, ht, hc, hf, this, hal]
  · intro hd hr
    have hentry : ∀ (a : AlbumReferences) (w' : World σ X),
        untarEntry c albumsFile referencesFile dst hdr body a w'
          = (some Error.UnknownTypeflag, a, w') := by
      intro a w'
      simp [untarEntry, hd, hr]
    refine ⟨hentry _ _, ?_⟩
    intro pre rest
    have := untarLoop_unknown c albumsFile referencesFile dst hdr body
      (fun a w' => by rw [hentry]; simp) pre rest [] w
    unfold untar
    simpa using this

/-- C1 at the regular file `files/a.txt` with the reserved names `albums.json`
and `references.json`. -/
theorem untar_dispatch_witness :
    "albums.json" ≠ "references.json" ∧
    (
    (∀ a b : String, path_Clean (regHeader "files/a.txt").Name = a ++ "/" ++ b → '/' ∉ a.data →
        untarParts (regHeader "files/a.txt").Name = (a, b)) ∧
    ('/' ∉ (path_Clean (regHeader "files/a.txt").Name).data → untarParts (regHeader "files/a.txt").Name = ("", "")) ∧
    ((regHeader "files/a.txt").Typeflag = tar_TypeDir → (untarParts (regHeader "files/a.txt").Name).1 = "files" →
      untarEntry (memCollab [] [] []) "albums.json" "references.json" dstDir (regHeader "files/a.txt") "0123456789" [] ⟨memStoreWith [] [], []⟩ =
        match vfs_MkdirAll (memCollab [] [] []) (path_Join [dstDir.Fullpath, (untarParts (regHeader "files/a.txt").Name).2]) ⟨memStoreWith [] [], []⟩ with
        | (.error err, w1) => (some err, [], w1)
        | (.ok _, w1) => (none, [], w1)) ∧
    ((regHeader "files/a.txt").Typeflag = tar_TypeDir → (untarParts (regHeader "files/a.txt").Name).1 ≠ "files" →
      untarEntry (memCollab [] [] []) "albums.json" "references.json" dstDir (regHeader "files/a.txt") "0123456789" [] ⟨memStoreWith [] [], []⟩ = (none, [], ⟨memStoreWith [] [], []⟩)) ∧
    ((regHeader "files/a.txt").Typeflag = tar_TypeReg → (untarParts (regHeader "files/a.txt").Name).1 = "albums" →
      (untarParts (regHeader "files/a.txt").Name).2 = "albums.json" →
      untarEntry (memCollab [] [] []) "albums.json" "references.json" dstDir (regHeader "files/a.txt") "0123456789" [] ⟨memStoreWith [] [], []⟩ = createAlbums (memCollab [] [] []) "0123456789" [] ⟨memStoreWith [] [], []⟩) ∧
    ((regHeader "files/a.txt").Typeflag = tar_TypeReg → (untarParts (regHeader "files/a.txt").Name).1 = "albums" →
      (untarParts (regHeader "files/a.txt").Name).2 = "references.json" →
      untarEntry (memCollab [] [] []) "albums.json" "references.json" dstDir (regHeader "files/a.txt") "0123456789" [] ⟨memStoreWith [] [], []⟩ = fillAlbums (memCollab [] [] []) "0123456789" dstDir [] ⟨memStoreWith [] [], []⟩) ∧
    ((regHeader "files/a.txt").Typeflag = tar_TypeReg → (untarParts (regHeader "files/a.txt").Name).1 = "contacts" →
      untarEntry (memCollab [] [] []) "albums.json" "references.json" dstDir (regHeader "files/a.txt") "0123456789" [] ⟨memStoreWith [] [], []⟩ =
        ((createContact (memCollab [] [] []) (regHeader "files/a.txt") "0123456789" ⟨memStoreWith [] [], []⟩).1, [], (createContact (memCollab [] [] []) (regHeader "files/a.txt") "0123456789" ⟨memStoreWith [] [], []⟩).2)) ∧
    ((regHeader "files/a.txt").Typeflag = tar_TypeReg → (untarParts (regHeader "files/a.txt").Name).1 = "files" →
      untarEntry (memCollab [] [] []) "albums.json" "references.json" dstDir (regHeader "files/a.txt") "0123456789" [] ⟨memStoreWith [] [], []⟩ =
        ((createFile (memCollab [] [] []) (regHeader "files/a.txt") "0123456789" dstDir ⟨memStoreWith [] [], []⟩).1, [], (createFile (memCollab [] [] []) (regHeader "files/a.txt") "0123456789" dstDir ⟨memStoreWith [] [], []⟩).2)) ∧
    ((regHeader "files/a.txt").Typeflag = tar_TypeReg → (untarParts (regHeader "files/a.txt").Name).1 ≠ "contacts" →
      (untarParts (regHeader "files/a.txt").Name).1 ≠ "files" →
      ((untarParts (regHeader "files/a.txt").Name).1 = "albums" → (untarParts (regHeader "files/a.txt").Name).2 ≠ "albums.json" ∧
        (untarParts (regHeader "files/a.txt").Name).2 ≠ "references.json") →
      untarEntry (memCollab [] [] []) "albums.json" "references.json" dstDir (regHeader "files/a.txt") "0123456789" [] ⟨memStoreWith [] [], []⟩ = (none, [], ⟨memStoreWith [] [], []⟩)) ∧
    ((regHeader "files/a.txt").Typeflag ≠ tar_TypeDir → (regHeader "files/a.txt").Typeflag ≠ tar_TypeReg →
      untarEntry (memCollab [] [] []) "albums.json" "references.json" dstDir (regHeader "files/a.txt") "0123456789" [] ⟨memStoreWith [] [], []⟩ = (some Error.UnknownTypeflag, [], ⟨memStoreWith [] [], []⟩) ∧
      ∀ pre rest : List TarNext,
        (untar (memCollab [] [] []) "albums.json" "references.json" (.ok (pre ++ TarNext.entry (regHeader "files/a.txt") "0123456789" :: rest)) dstDir ⟨memStoreWith [] [], []⟩).1 ≠ none)) :=
  ⟨by decide,
   untar_dispatch (memCollab [] [] []) "albums.json" "references.json" (by decide) dstDir
    (regHeader "files/a.txt") "0123456789" [] ⟨memStoreWith [] [], []⟩⟩

/-! ## Facts on maps and on `JSONDoc` -/

theorem mapGet_cons {β : Type} (kv : String × β) (m : List (String × β)) (k : String) :
    mapGet (kv :: m) k = if kv.1 = k then some kv.2 else mapGet m k := by
  by_cases h : kv.1 = k <;> simp [mapGet, List.find?_cons, h]

theorem mapDelete_cons {β : Type} (kv : String × β) (m : List (String × β)) (k : String) :
    mapDelete (kv :: m) k = if kv.1 = k then mapDelete m k else kv :: mapDelete m k := by
  by_cases h : kv.1 = k <;> simp [mapDelete, List.filter_cons, h]

theorem mapGet_mapDelete_self {β : Type} (m : List (String × β)) (k : String) :
    mapGet (mapDelete m k) k = none := by
  induction m with
  | nil => rfl
  | cons kv m ih =>
    rw [mapDelete_cons]
    by_cases h : kv.1 = k
    · rw [if_pos h]; exact ih
    · rw [if_neg h, mapGet_cons, if_neg h]; exact ih

theorem mapGet_mapDelete_ne {β : Type} (m : List (String × β)) (k k' : String) (hk : k ≠ k') :
    mapGet (mapDelete m k) k' = mapGet m k' := by
  induction m with
  | nil => rfl
  | cons kv m ih =>
    rw [mapDelete_cons]
    by_cases h : kv.1 = k
    · have h' : ¬ kv.1 = k' := fun e => hk (h ▸ e)
      rw [if_pos h, mapGet_cons, if_neg h']; exact ih
    · rw [if_neg h, mapGet_cons, mapGet_cons, ih]

theorem mapGet_append_singleton {β : Type} (m : List (String × β)) (k k' : String) (v : β) :
    mapGet (m ++ [(k, v)]) k' =
      match mapGet m k' with
      | some x => some x
      | none => if k = k' then some v else none := by
  induction m with
  | nil =>
    rw [List.nil_append, mapGet_cons]
    rfl
  | cons kv m ih =>
    rw [List.cons_append, mapGet_cons, mapGet_cons]
    by_cases h : kv.1 = k'
    · rw [if_pos h, if_pos h]
    · rw [if_neg h, if_neg h]; exact ih

theorem mapGet_mapSet_self {β : Type} (m : List (String × β)) (k : String) (v : β) :
    mapGet (mapSet m k v) k = some v := by
  rw [mapSet, mapGet_append_singleton, mapGet_mapDelete_self]
  simp

theorem mapGet_mapSet_ne {β : Type} (m : List (String × β)) (k k' : String) (v : β)
    (hk : k ≠ k') : mapGet (mapSet m k v) k' = mapGet m k' := by
  rw [mapSet, mapGet_append_singleton, mapGet_mapDelete_ne _ _ _ hk]
  cases mapGet m k' <;> simp [hk]

theorem mapDelete_of_not_mem {β : Type} (m : List (String × β)) (k : String)
    (h : k ∉ m.map Prod.fst) : mapDelete m k = m := by
  unfold mapDelete
  rw [List.filter_eq_self]
  intro kv hkv
  simp only [ne_eq, decide_not, Bool.not_eq_eq_eq_not, Bool.not_true, decide_eq_false_iff_not]
  rintro rfl
  exact h (List.mem_map_of_mem _ hkv)

theorem JSONDoc.ID_SetID_SetRev {X : Type} (j : JSONDoc X) (id rev : String) :
    ((j.SetID id).SetRev rev).ID = id := by
  have hne : "_rev" ≠ "_id" := by decide
  have h1 : mapGet ((j.SetID id).SetRev rev).M "_id" = mapGet (j.SetID id).M "_id" := by
    unfold JSONDoc.SetRev
    split
    · exact mapGet_mapDelete_ne _ _ _ hne
    · exact mapGet_mapSet_ne _ _ _ _ hne
  unfold JSONDoc.ID
  rw [h1]
  unfold JSONDoc.SetID
  by_cases hid : id = ""
  · simp [hid, mapGet_mapDelete_self]
  · simp [hid, mapGet_mapSet_self]

theorem createAlbums_submitted {X : Type} (doctype : String) (record : JSONDoc X) :
    ({ (({ record with M := mapDelete record.M "type" } : JSONDoc X).SetID "").SetRev ""
        with Type_ := doctype } : JSONDoc X) = albumOfRecord doctype record := by
  simp only [JSONDoc.SetID, JSONDoc.SetRev, if_true, albumOfRecord, mapDelete,
    List.filter_filter]
  congr 1
  apply List.filter_congr
  intro kv _
  by_cases h1 : kv.1 = "_id" <;> by_cases h2 : kv.1 = "_rev" <;> by_cases h3 : kv.1 = "type" <;>
    simp [h1, h2, h3]

theorem JSONDoc.ID_mapDelete_type {X : Type} (record : JSONDoc X) :
    ({ record with M := mapDelete record.M "type" } : JSONDoc X).ID = record.ID := by
  unfold JSONDoc.ID
  rw [mapGet_mapDelete_ne _ _ _ (by decide)]

theorem createdDocs_append {X : Type} (l1 l2 : List (Event X)) :
    createdDocs (l1 ++ l2) = createdDocs l1 ++ createdDocs l2 := by
  induction l1 with
  | nil => rfl
  | cons e rest ih => cases e <;> simp [createdDocs, ih]

theorem mapGet_filter_key {β : Type} (m : List (String × β)) (q : String → Bool) (k : String) :
    mapGet (m.filter (fun kv => q kv.1)) k = if q k then mapGet m k else none := by
  induction m with
  | nil => simp [mapGet]
  | cons kv m ih =>
    rw [List.filter_cons]
    by_cases hq : q kv.1 = true
    · rw [if_pos hq, mapGet_cons, mapGet_cons, ih]
      by_cases hk : kv.1 = k
      · rw [if_pos hk, if_pos hk, ← hk, if_pos hq]
      · rw [if_neg hk, if_neg hk]
    · rw [if_neg hq, ih, mapGet_cons]
      by_cases hk : kv.1 = k
      · rw [← hk, if_neg hq, if_neg hq]
      · rw [if_neg hk]

/-- The album document of a record has no identifier, no revision and no type
discriminator, and every other field of the record. -/
theorem albumOfRecord_fields {X : Type} (doctype : String) (record : JSONDoc X) :
    (albumOfRecord doctype record).ID = "" ∧
    mapGet (albumOfRecord doctype record).M "_id" = none ∧
    mapGet (albumOfRecord doctype record).M "_rev" = none ∧
    mapGet (albumOfRecord doctype record).M "type" = none ∧
    ∀ k, k ≠ "_id" → k ≠ "_rev" → k ≠ "type" →
      mapGet (albumOfRecord doctype record).M k = mapGet record.M k := by
  have hget : ∀ k, mapGet (albumOfRecord doctype record).M k
      = if decide (k ≠ "_id" ∧ k ≠ "_rev" ∧ k ≠ "type") = true then mapGet record.M k
        else none :=
    fun k => mapGet_filter_key record.M
      (fun key => decide (key ≠ "_id" ∧ key ≠ "_rev" ∧ key ≠ "type")) k
  have hid : mapGet (albumOfRecord doctype record).M "_id" = none := by rw [hget]; simp
  refine ⟨?_, hid, ?_, ?_, ?_⟩
  · unfold JSONDoc.ID
    rw [hid]
  · rw [hget]; simp
  · rw [hget]; simp
  · intro k h1 h2 h3
    rw [hget]
    simp [h1, h2, h3]

/-- One iteration of the loop of `createAlbums` on a line that parses. -/
theorem createAlbumsLoop_cons {σ X : Type} (c : Collab σ X) (line : String)
    (rest : List String) (albums : AlbumReferences) (w : World σ X) (record : JSONDoc X)
    (hp : c.UnmarshalJSONDoc line = .ok record) :
    createAlbumsLoop c (line :: rest) albums w =
      match c.CreateDoc w.st (Doc.json (albumOfRecord c.PhotosAlbums record)) with
      | (.error err, s) =>
        (some err, albums,
          w.step s (Event.CreateDoc (Doc.json (albumOfRecord c.PhotosAlbums record)) (.error err)))
      | (.ok (newID, newRev), s) =>
        createAlbumsLoop c rest
          (mapSet albums record.ID { ID := newID, Type_ := c.PhotosAlbums })
          (w.step s (Event.CreateDoc (Doc.json (albumOfRecord c.PhotosAlbums record)) (.ok (newID, newRev)))) := by
  rw [createAlbumsLoop]
  simp only [hp, createAlbums_submitted, JSONDoc.ID_mapDelete_type, couchdb_CreateDoc,
    JSONDoc.ID_SetID_SetRev]
  rcases hc : c.CreateDoc w.st (Doc.json (albumOfRecord c.PhotosAlbums record)) with
    ⟨r | ⟨newID, newRev⟩, s⟩
  · simp only [hc]
  · simp only [hc]

/-! ## Claims on `createAlbums` -/

/-- C4: the documents `createAlbums` submits to the document store are, in
order, those of the manifest records (one per line): each is the parsed record
with its identifier, revision and type-discriminator fields removed and every
other field unchanged, so it carries no identifier and no revision; no other
call is made, and when `createAlbums` succeeds every line has been
submitted. -/
theorem createAlbums_documents {σ X : Type} (c : Collab σ X) (tr : String)
    (albums : AlbumReferences) (w : World σ X) :
    ∃ docs : List (Doc X × Except Error (String × String)),
      (createAlbums c tr albums w).2.2.trace
        = w.trace ++ docs.map (fun d => Event.CreateDoc d.1 d.2) ∧
      docs.length ≤ (c.ScanLines tr).length ∧
      ((createAlbums c tr albums w).1 = none → docs.length = (c.ScanLines tr).length) ∧
      List.Forall₂
        (fun (d : Doc X × Except Error (String × String)) (line : String) =>
          ∃ record, c.UnmarshalJSONDoc line = .ok record ∧
            d.1 = Doc.json (albumOfRecord c.PhotosAlbums record) ∧
            (albumOfRecord c.PhotosAlbums record).ID = "" ∧
            mapGet (albumOfRecord c.PhotosAlbums record).M "_id" = none ∧
            mapGet (albumOfRecord c.PhotosAlbums record).M "_rev" = none ∧
            mapGet (albumOfRecord c.PhotosAlbums record).M "type" = none ∧
            ∀ k, k ≠ "_id" → k ≠ "_rev" → k ≠ "type" →
              mapGet (albumOfRecord c.PhotosAlbums record).M k = mapGet record.M k)
        docs ((c.ScanLines tr).take docs.length) := by
  unfold createAlbums
  generalize c.ScanLines tr = lines
  induction lines generalizing albums w with
  | nil => exact ⟨[], by simp [createAlbumsLoop], by simp, by simp, by simp⟩
  | cons line rest ih =>
    cases hp : c.UnmarshalJSONDoc line with
    | error err =>
      refine ⟨[], ?_, by simp, ?_, by simp⟩
      · simp [createAlbumsLoop, hp]
      · simp [createAlbumsLoop, hp]
    | ok record =>
      rw [createAlbumsLoop_cons c line rest albums w record hp]
      rcases hc : c.CreateDoc w.st (Doc.json (albumOfRecord c.PhotosAlbums record)) with
        ⟨err | ⟨newID, newRev⟩, s⟩
      · refine ⟨[(Doc.json (albumOfRecord c.PhotosAlbums record), .error err)], ?_, by simp, ?_, ?_⟩
        · simp [World.step]
        · simp
        · simp only [List.length_singleton, List.take_succ_cons, List.take_zero]
          exact List.Forall₂.cons ⟨record, hp, rfl, albumOfRecord_fields c.PhotosAlbums record⟩
            List.Forall₂.nil
      · obtain ⟨docs, h1, h2, h3, h4⟩ := ih
          (mapSet albums record.ID { ID := newID, Type_ := c.PhotosAlbums })
          (w.step s (Event.CreateDoc (Doc.json (albumOfRecord c.PhotosAlbums record)) (.ok (newID, newRev))))
        refine ⟨(Doc.json (albumOfRecord c.PhotosAlbums record), .ok (newID, newRev)) :: docs, ?_, ?_, ?_, ?_⟩
        · simp only [h1]
          simp [World.step]
        · simpa using h2
        · intro hn
          simpa using h3 hn
        · simp only [List.length_cons, List.take_succ_cons]
          exact List.Forall₂.cons ⟨record, hp, rfl, albumOfRecord_fields c.PhotosAlbums record⟩ h4

theorem createAlbumsLoop_table {σ X : Type} (c : Collab σ X) (lines : List String)
    (records : List (JSONDoc X)) (albums : AlbumReferences) (w : World σ X)
    (hparse : lines.map c.UnmarshalJSONDoc = records.map Except.ok)
    (hok : (createAlbumsLoop c lines albums w).1 = none)
    (hdistinct : (records.map JSONDoc.ID).Nodup)
    (hfresh : ∀ record ∈ records, record.ID ∉ albums.map Prod.fst) :
    ∃ answers : List (String × String),
      answers.length = records.length ∧
      (createAlbumsLoop c lines albums w).2.2.trace
        = w.trace ++ List.zipWith
            (fun record a => Event.CreateDoc (Doc.json (albumOfRecord c.PhotosAlbums record)) (.ok a))
            records answers ∧
      (createAlbumsLoop c lines albums w).2.1
        = albums ++ List.zipWith
            (fun record a =>
              (record.ID, ({ ID := a.1, Type_ := c.PhotosAlbums } : DocReference)))
            records answers := by
  induction lines generalizing records albums w with
  | nil =>
    cases records with
    | nil => exact ⟨[], rfl, by simp [createAlbumsLoop], by simp [createAlbumsLoop]⟩
    | cons r rs => simp at hparse
  | cons line rest ih =>
    cases records with
    | nil => simp at hparse
    | cons record recs =>
      simp only [List.map_cons, List.cons.injEq] at hparse
      obtain ⟨hp, hrest⟩ := hparse
      rw [createAlbumsLoop_cons c line rest albums w record hp] at hok ⊢
      rcases hc : c.CreateDoc w.st (Doc.json (albumOfRecord c.PhotosAlbums record)) with
        ⟨err | ⟨newID, newRev⟩, s⟩
      · rw [hc] at hok
        simp at hok
      · rw [hc] at hok
        simp only [] at hok ⊢
        have hnd : record.ID ∉ recs.map JSONDoc.ID ∧ (recs.map JSONDoc.ID).Nodup :=
          List.nodup_cons.1 hdistinct
        have hset : mapSet albums record.ID { ID := newID, Type_ := c.PhotosAlbums }
            = albums ++ [(record.ID, { ID := newID, Type_ := c.PhotosAlbums })] := by
          unfold mapSet
          rw [mapDelete_of_not_mem _ _ (hfresh record (List.mem_cons_self _ _))]
        rw [hset] at hok ⊢
        obtain ⟨answers, h1, h2, h3⟩ := ih recs
          (albums ++ [(record.ID, { ID := newID, Type_ := c.PhotosAlbums })])
          (w.step s (Event.CreateDoc (Doc.json (albumOfRecord c.PhotosAlbums record)) (.ok (newID, newRev))))
          hrest hok hnd.2
          (by
            intro r hr hmem
            simp only [List.map_append, List.map_cons, List.map_nil, List.mem_append,
              List.mem_singleton] at hmem
            rcases hmem with hm | hm
            · exact hfresh r (List.mem_cons_of_mem _ hr) hm
            · exact hnd.1 (hm ▸ List.mem_map_of_mem _ hr))
        refine ⟨(newID, newRev) :: answers, by simp [h1], ?_, ?_⟩
        · rw [h2]
          simp [World.step]
        · rw [h3]
          simp

theorem mapGet_zipWith_nodup {A B β : Type} (key : A → String) (val : B → β)
    (xs : List A) (ys : List B) (hnd : (xs.map key).Nodup) :
    ∀ p ∈ List.zip xs ys,
      mapGet (List.zipWith (fun x y => (key x, val y)) xs ys) (key p.1) = some (val p.2) := by
  induction xs generalizing ys with
  | nil => simp
  | cons x xs ih =>
    cases ys with
    | nil => simp
    | cons y ys =>
      have hnd' : key x ∉ xs.map key ∧ (xs.map key).Nodup := List.nodup_cons.1 hnd
      intro p hp
      simp only [List.zip_cons_cons, List.mem_cons] at hp
      rw [List.zipWith_cons_cons, mapGet_cons]
      rcases hp with rfl | hp
      · simp
      · have hmem : p.1 ∈ xs := (List.of_mem_zip hp).1
        have hne : ¬ key x = key p.1 := fun e => hnd'.1 (e ▸ List.mem_map_of_mem _ hmem)
        simp only [hne, if_false]
        exact ih ys hnd'.2 p hp

/-- C3, as amended: for every albums manifest whose records are all parsed and
persisted successfully and carry pairwise distinct archive-local identifiers,
`createAlbums` started on an empty reference table submits one album per
record and ends with a table holding exactly one entry per record, in order:
as many keys as records, each record's identifier mapped to the identifier the
document store assigned to that record's album, with the album type. -/
theorem createAlbums_table {σ X : Type} (c : Collab σ X) (tr : String) (w : World σ X)
    (records : List (JSONDoc X))
    (hparse : (c.ScanLines tr).map c.UnmarshalJSONDoc = records.map Except.ok)
    (hok : (createAlbums c tr [] w).1 = none)
    (hdistinct : (records.map JSONDoc.ID).Nodup) :
    ∃ answers : List (String × String),
      answers.length = records.length ∧
      (createAlbums c tr [] w).2.2.trace
        = w.trace ++ List.zipWith
            (fun record a => Event.CreateDoc (Doc.json (albumOfRecord c.PhotosAlbums record)) (.ok a))
            records answers ∧
      (createAlbums c tr [] w).2.1
        = List.zipWith
            (fun record a =>
              (record.ID, ({ ID := a.1, Type_ := c.PhotosAlbums } : DocReference)))
            records answers ∧
      (createAlbums c tr [] w).2.1.length = records.length ∧
      ∀ p ∈ List.zip records answers,
        mapGet (createAlbums c tr [] w).2.1 p.1.ID
          = some { ID := p.2.1, Type_ := c.PhotosAlbums } := by
  unfold createAlbums at hok ⊢
  obtain ⟨answers, h1, h2, h3⟩ :=
    createAlbumsLoop_table c (c.ScanLines tr) records [] w hparse hok hdistinct (by simp)
  rw [List.nil_append] at h3
  refine ⟨answers, h1, h2, h3, ?_, ?_⟩
  · rw [h3]
    simp [h1]
  · rw [h3]
    exact mapGet_zipWith_nodup JSONDoc.ID
      (fun a : String × String => ({ ID := a.1, Type_ := c.PhotosAlbums } : DocReference))
      records answers hdistinct

/-- C3 at the manifest made of the records `a1` and `a2`. -/
theorem createAlbums_table_witness :
    ((memCollab [] albumRecords []).ScanLines (tripLine ++ "\n" ++ homeLine)).map
        (memCollab [] albumRecords []).UnmarshalJSONDoc
      = ([⟨[("_id", .str "a1"), ("name", .str "Trip")], ""⟩,
          ⟨[("_id", .str "a2"), ("name", .str "Home")], ""⟩] : List (JSONDoc String)).map
          Except.ok ∧
    (createAlbums (memCollab [] albumRecords []) (tripLine ++ "\n" ++ homeLine) []
      ⟨memStoreWith [] [], []⟩).1 = none ∧
    (([⟨[("_id", .str "a1"), ("name", .str "Trip")], ""⟩,
       ⟨[("_id", .str "a2"), ("name", .str "Home")], ""⟩] : List (JSONDoc String)).map
       JSONDoc.ID).Nodup ∧
    ∃ answers : List (String × String),
      answers.length
        = ([⟨[("_id", .str "a1"), ("name", .str "Trip")], ""⟩,
            ⟨[("_id", .str "a2"), ("name", .str "Home")], ""⟩] : List (JSONDoc String)).length ∧
      (createAlbums (memCollab [] albumRecords []) (tripLine ++ "\n" ++ homeLine) []
          ⟨memStoreWith [] [], []⟩).2.2.trace
        = [] ++ List.zipWith
            (fun record a => Event.CreateDoc (Doc.json (albumOfRecord "io.cozy.photos.albums" record)) (.ok a))
            ([⟨[("_id", .str "a1"), ("name", .str "Trip")], ""⟩,
              ⟨[("_id", .str "a2"), ("name", .str "Home")], ""⟩] : List (JSONDoc String))
            answers ∧
      (createAlbums (memCollab [] albumRecords []) (tripLine ++ "\n" ++ homeLine) []
          ⟨memStoreWith [] [], []⟩).2.1
        = List.zipWith
            (fun record a =>
              (record.ID, ({ ID := a.1, Type_ := "io.cozy.photos.albums" } : DocReference)))
            ([⟨[("_id", .str "a1"), ("name", .str "Trip")], ""⟩,
              ⟨[("_id", .str "a2"), ("name", .str "Home")], ""⟩] : List (JSONDoc String))
            answers ∧
      (createAlbums (memCollab [] albumRecords []) (tripLine ++ "\n" ++ homeLine) []
          ⟨memStoreWith [] [], []⟩).2.1.length
        = ([⟨[("_id", .str "a1"), ("name", .str "Trip")], ""⟩,
            ⟨[("_id", .str "a2"), ("name", .str "Home")], ""⟩] : List (JSONDoc String)).length ∧
      ∀ p ∈ List.zip
          ([⟨[("_id", .str "a1"), ("name", .str "Trip")], ""⟩,
            ⟨[("_id", .str "a2"), ("name", .str "Home")], ""⟩] : List (JSONDoc String))
          answers,
        mapGet (createAlbums (memCollab [] albumRecords []) (tripLine ++ "\n" ++ homeLine) []
            ⟨memStoreWith [] [], []⟩).2.1 p.1.ID
          = some { ID := p.2.1, Type_ := "io.cozy.photos.albums" } :=
  ⟨by rfl, by rfl, by decide,
   createAlbums_table (memCollab [] albumRecords []) (tripLine ++ "\n" ++ homeLine)
    ⟨memStoreWith [] [], []⟩
    [⟨[("_id", .str "a1"), ("name", .str "Trip")], ""⟩,
     ⟨[("_id", .str "a2"), ("name", .str "Home")], ""⟩]
    (by rfl) (by rfl) (by decide)⟩

/-- C3 fails as stated: a manifest of two records that both carry the
identifier `a1`, both parsed and persisted successfully, leaves a table with a
single key; the entry written for the first record (album `doc0`) has been
overwritten by the second (album `doc1`). -/
theorem createAlbums_duplicate_identifier :
    (createAlbums (memCollab [] albumRecords []) (tripLine ++ "\n" ++ workLine) []
      ⟨memStoreWith [] [], []⟩).1 = none ∧
    ((memCollab [] albumRecords []).ScanLines (tripLine ++ "\n" ++ workLine)).length = 2 ∧
    (createdDocs (createAlbums (memCollab [] albumRecords []) (tripLine ++ "\n" ++ workLine) []
      ⟨memStoreWith [] [], []⟩).2.2.trace).map (fun d => d.2)
      = [.ok ("doc0", "1-doc0"), .ok ("doc1", "1-doc1")] ∧
    (createAlbums (memCollab [] albumRecords []) (tripLine ++ "\n" ++ workLine) []
      ⟨memStoreWith [] [], []⟩).2.1
      = [("a1", { ID := "doc1", Type_ := "io.cozy.photos.albums" })] := by
  refine ⟨by rfl, by rfl, by rfl, by rfl⟩

/-! ## Claims on `fillAlbums` -/

/-- What `createContact` does for every vCard that decodes and has no
structured name (`N`) field: it submits exactly one contact to the document
store, with given name `John`, family name `Doe` and no other name part, with
identifier and revision unset, and succeeds when the store accepts it; the
full name is the value of the first field `FormattedNames()` returns. -/
theorem createContact_without_name {σ X : Type} (c : Collab σ X) (hdr : Header)
    (tr : String) (w : World σ X) (card : Card)
    (hdec : c.DecodeVCard tr = .ok card) (hname : card.Name = none) :
    ∃ contact res s,
      createContact c hdr tr w =
        ((match res with
          | .ok _ => none
          | .error err => some err),
         ⟨s, w.trace ++ [Event.CreateDoc (Doc.contact contact) res]⟩) ∧
      contact.Name = { GivenName := "John", FamilyName := "Doe" } ∧
      contact.DocID = "" ∧ contact.DocRev = "" ∧
      (∀ n rest, card.FormattedNames = n :: rest → contact.FullName = n.Value) := by
  unfold createContact
  simp only [hdec, couchdb_CreateDoc]
  rcases hc : c.CreateDoc w.st (Doc.contact (createContact_contact card)) with ⟨res, s⟩
  refine ⟨createContact_contact card, res, s, ?_, ?_, ?_, ?_, ?_⟩
  · cases res <;> simp [World.step, hc]
  · simp [createContact_contact, hname]
  · rfl
  · rfl
  · intro n rest h
    simp [createContact_contact, h]

/-- C6 at a vCard that has neither `N` nor `FN` (a version and a note only): it
decodes, `createContact` succeeds and persists one contact with given name
`John`, family name `Doe`, identifier and revision unset, and with the empty
full name instead of `John Doe`.  The default is lost for every card:
`FormattedNames()` returns at least one field, so line 147 always overwrites
the full name with the value of the first one. -/
theorem createContact_dead_default :
    ((memCollab vcards [] []).DecodeVCard noteVCard).toOption.map
        (fun k => (k.Name, k.fields "N", k.fields "FN")) = some (none, [], []) ∧
    (createContact (memCollab vcards [] []) contactHeader noteVCard
      ⟨memStoreWith [] [], []⟩).1 = none ∧
    (createdContacts (createContact (memCollab vcards [] []) contactHeader noteVCard
        ⟨memStoreWith [] [], []⟩).2.trace).map
        (fun k => (k.FullName, k.Name.GivenName, k.Name.FamilyName, k.DocID, k.DocRev, k.Note))
      = [("", "John", "Doe", "", "", "met in Paris")] ∧
    "" ≠ "John Doe" ∧
    (∀ card : Card, ∃ n rest, card.FormattedNames = n :: rest ∧
      (createContact_contact card).FullName = n.Value) := by
  refine ⟨by rfl, by rfl, by rfl, by decide, ?_⟩
  intro card
  cases h : card.fields "FN" with
  | nil =>
    refine ⟨⟨""⟩, [], by simp [Card.FormattedNames, h], ?_⟩
    simp [createContact_contact, Card.FormattedNames, h]
  | cons f rest =>
    refine ⟨f, rest, by simp [Card.FormattedNames, h], ?_⟩
    simp [createContact_contact, Card.FormattedNames, h]

/-! ## `path.Clean` on paths made of plain names -/

theorem slashedNames_head (items : List (Nat × List Char)) (suffix : List Char)
    (hk : ∀ it ∈ items, 1 ≤ it.1) (hs : suffix = [] ∨ suffix.head? = some '/') :
    slashedNames items ++ suffix = [] ∨ (slashedNames items ++ suffix).head? = some '/' := by
  cases items with
  | nil => simpa [slashedNames] using hs
  | cons it rest =>
    right
    obtain ⟨k, n⟩ := it
    have h1 : 1 ≤ k := hk (k, n) (List.mem_cons_self _ _)
    obtain ⟨k', rfl⟩ : ∃ k', k = k' + 1 := ⟨k - 1, by omega⟩
    simp [slashedNames, List.replicate_succ]

theorem cleanLoop_name (rooted : Bool) (fuel dd : Nat) (n rest out : List Char)
    (hn : n ≠ [] ∧ '/' ∉ n ∧ n ≠ ['.'] ∧ n ≠ ['.', '.'])
    (hrest : rest = [] ∨ rest.head? = some '/') :
    cleanLoop rooted (fuel + 1) (n ++ rest) out dd
      = cleanLoop rooted fuel rest
          ((if (rooted && out.length != 1) || (!rooted && out.length != 0) then out ++ ['/']
            else out) ++ n) dd := by
  obtain ⟨hne, hslash, hdot, hdotdot⟩ := hn
  cases n with
  | nil => exact absurd rfl hne
  | cons ch cs =>
    have hc : ch ≠ '/' := fun h => hslash (h ▸ List.mem_cons_self _ _)
    have hcs : ∀ x ∈ cs, x ≠ '/' := fun x hx h => hslash (h ▸ List.mem_cons_of_mem _ hx)
    have hpos : ∀ x ∈ cs, (fun d : Char => decide (d ≠ '/')) x = true := by
      intro x hx
      simpa using hcs x hx
    have htake : (cs ++ rest).takeWhile (fun d => decide (d ≠ '/')) = cs := by
      rw [List.takeWhile_append_of_pos hpos]
      rcases hrest with h | h
      · simp [h]
      · cases rest with
        | nil => simp
        | cons r rs => simp at h; simp [h]
    have hdrop : (cs ++ rest).dropWhile (fun d => decide (d ≠ '/')) = rest := by
      rw [List.dropWhile_append_of_pos hpos]
      rcases hrest with h | h
      · simp [h]
      · cases rest with
        | nil => simp
        | cons r rs => simp at h; simp [h]
    have hhead : (cs ++ rest).head? = some '/' → cs = [] := by
      intro h
      cases cs with
      | nil => rfl
      | cons x xs =>
        simp at h
        exact absurd h (hcs x (List.mem_cons_self _ _))
    have h2 : ¬ (ch = '.' ∧ (cs ++ rest = [] ∨ (cs ++ rest).head? = some '/')) := by
      rintro ⟨rfl, h | h⟩
      · have : cs = [] := (List.append_eq_nil.1 h).1
        exact hdot (by rw [this])
      · exact hdot (by rw [hhead h])
    have h3 : ¬ (ch = '.' ∧ (cs ++ rest).head? = some '.' ∧
        ((cs ++ rest).tail = [] ∨ (cs ++ rest).tail.head? = some '/')) := by
      rintro ⟨rfl, hh, ht⟩
      cases cs with
      | nil =>
        rcases hrest with h | h
        · simp [h] at hh
        · simp [h] at hh
      | cons x xs =>
        simp only [List.cons_append, List.head?_cons, Option.some.injEq] at hh
        subst hh
        simp only [List.cons_append, List.tail_cons] at ht
        have hxs : xs = [] := by
          rcases ht with h | h
          · exact (List.append_eq_nil.1 h).1
          · cases xs with
            | nil => rfl
            | cons y ys =>
              simp at h
              exact absurd h (hcs y (by simp))
        exact hdotdot (by rw [hxs])
    rw [List.cons_append, cleanLoop]
    simp only [hc, if_false, h2, h3, htake, hdrop]

theorem cleanLoop_slashes (rooted : Bool) (fuel k dd : Nat) (rest out : List Char) :
    cleanLoop rooted (fuel + k) (List.replicate k '/' ++ rest) out dd
      = cleanLoop rooted fuel rest out dd := by
  induction k with
  | zero => rfl
  | succ k ih =>
    rw [List.replicate_succ, List.cons_append, ← Nat.add_assoc, cleanLoop]
    simp only [if_true]
    exact ih

theorem cleanLoop_slashedNames (rooted : Bool) (items : List (Nat × List Char))
    (suffix : List Char) (fuel dd : Nat) (out : List Char)
    (hitems : ∀ it ∈ items, 1 ≤ it.1 ∧
      (it.2 ≠ [] ∧ '/' ∉ it.2 ∧ it.2 ≠ ['.'] ∧ it.2 ≠ ['.', '.']))
    (hs : suffix = [] ∨ suffix.head? = some '/')
    (hfuel : (slashedNames items ++ suffix).length ≤ fuel) :
    ∃ fuel', suffix.length ≤ fuel' ∧
      cleanLoop rooted fuel (slashedNames items ++ suffix) out dd
        = cleanLoop rooted fuel' suffix (writeNames rooted out (items.map Prod.snd)) dd := by
  induction items generalizing fuel out with
  | nil => exact ⟨fuel, by simpa [slashedNames] using hfuel, rfl⟩
  | cons it rest ih =>
    obtain ⟨k, n⟩ := it
    have hit := hitems (k, n) (List.mem_cons_self _ _)
    have hrest : ∀ it ∈ rest, 1 ≤ it.1 ∧
        (it.2 ≠ [] ∧ '/' ∉ it.2 ∧ it.2 ≠ ['.'] ∧ it.2 ≠ ['.', '.']) :=
      fun it h => hitems it (List.mem_cons_of_mem _ h)
    have hn0 : 1 ≤ n.length := by
      cases n with
      | nil => exact absurd rfl hit.2.1
      | cons x xs => simp
    simp only [slashedNames, List.length_append, List.length_replicate] at hfuel
    obtain ⟨f, rfl⟩ : ∃ f, fuel = (f + 1) + k := ⟨fuel - k - 1, by omega⟩
    simp only [slashedNames, List.map_cons, writeNames, List.append_assoc]
    rw [cleanLoop_slashes, cleanLoop_name rooted f dd n (slashedNames rest ++ suffix) out hit.2
      (slashedNames_head rest suffix (fun it h => (hrest it h).1) hs)]
    exact ih f _ hrest (by simp only [List.length_append]; omega)

/-- Trailing input that `path.Clean` reads without writing: nothing, a final
`/`, or a final `/.`. -/
theorem cleanLoop_suffix (rooted : Bool) (fuel dd : Nat) (suffix out : List Char)
    (hs : suffix = [] ∨ suffix = ['/'] ∨ suffix = ['/', '.'])
    (hfuel : suffix.length ≤ fuel) : cleanLoop rooted fuel suffix out dd = out := by
  rcases hs with rfl | rfl | rfl
  · cases fuel <;> rfl
  · obtain ⟨f, rfl⟩ : ∃ f, fuel = f + 1 := ⟨fuel - 1, by simp at hfuel; omega⟩
    rw [cleanLoop]
    simp only [if_true]
    cases f <;> rfl
  · obtain ⟨f, rfl⟩ : ∃ f, fuel = f + 2 := ⟨fuel - 2, by simp at hfuel; omega⟩
    rw [cleanLoop]
    simp only [if_true]
    rw [cleanLoop]
    simp only [List.head?_nil, List.tail_nil, true_or, and_true, if_true]
    have h1 : ¬ ('.' = '/') := by decide
    simp only [h1, if_false]
    cases f <;> rfl

theorem writeNames_rooted (pre : List Char) (names : List (List Char)) (hpre : pre ≠ []) :
    writeNames true ('/' :: pre) names
      = '/' :: pre ++ (names.map (fun n => '/' :: n)).flatten := by
  induction names generalizing pre with
  | nil => simp [writeNames]
  | cons n rest ih =>
    have hlen : ('/' :: pre).length ≠ 1 := by
      cases pre with
      | nil => exact absurd rfl hpre
      | cons x xs => simp
    have hcond : ((true && ('/' :: pre).length != 1) || (!true && ('/' :: pre).length != 0))
        = true := by simpa using hlen
    rw [writeNames, if_pos hcond]
    have := ih (pre ++ '/' :: n) (by simp)
    simp only [List.cons_append, List.append_assoc, List.singleton_append,
      List.nil_append] at this ⊢
    rw [this]
    simp

theorem writeNames_relative (pre : List Char) (names : List (List Char)) (hpre : pre ≠ []) :
    writeNames false pre names = pre ++ (names.map (fun n => '/' :: n)).flatten := by
  induction names generalizing pre with
  | nil => simp [writeNames]
  | cons n rest ih =>
    have hlen : pre.length ≠ 0 := by
      cases pre with
      | nil => exact absurd rfl hpre
      | cons x xs => simp
    have hcond : ((false && pre.length != 1) || (!false && pre.length != 0)) = true := by
      simpa using hlen
    rw [writeNames, if_pos hcond]
    have := ih (pre ++ '/' :: n) (by simp)
    simp only [List.append_assoc, List.singleton_append] at this ⊢
    rw [this]
    simp

theorem intercalate_slash_cons (n : List Char) (names : List (List Char)) :
    List.intercalate ['/'] (n :: names) = n ++ (names.map (fun m => '/' :: m)).flatten := by
  induction names generalizing n with
  | nil => simp [List.intercalate]
  | cons m rest ih =>
    have h := ih m
    simp only [List.intercalate, List.intersperse_cons_cons, List.flatten_cons,
      List.map_cons] at h ⊢
    rw [h]
    simp

theorem slashedNames_ones (names : List (List Char)) :
    slashedNames (names.map (fun n => (1, n))) = (names.map (fun n => '/' :: n)).flatten := by
  induction names with
  | nil => rfl
  | cons n rest ih => simp [slashedNames, ih, List.replicate_succ]

theorem slashedNames_append (xs ys : List (Nat × List Char)) :
    slashedNames (xs ++ ys) = slashedNames xs ++ slashedNames ys := by
  induction xs with
  | nil => rfl
  | cons it rest ih =>
    obtain ⟨k, n⟩ := it
    simp [slashedNames, ih]

theorem cleanChars_rooted_names (n1 : List Char) (items : List (Nat × List Char))
    (suffix : List Char)
    (hn1 : n1 ≠ [] ∧ '/' ∉ n1 ∧ n1 ≠ ['.'] ∧ n1 ≠ ['.', '.'])
    (hitems : ∀ it ∈ items, 1 ≤ it.1 ∧
      (it.2 ≠ [] ∧ '/' ∉ it.2 ∧ it.2 ≠ ['.'] ∧ it.2 ≠ ['.', '.']))
    (hs : suffix = [] ∨ suffix = ['/'] ∨ suffix = ['/', '.']) :
    cleanChars ('/' :: (n1 ++ (slashedNames items ++ suffix)))
      = '/' :: n1 ++ (items.map (fun it => '/' :: it.2)).flatten := by
  have hs' : suffix = [] ∨ suffix.head? = some '/' := by
    rcases hs with rfl | rfl | rfl <;> simp
  have hloop : cleanLoop true ('/' :: (n1 ++ (slashedNames items ++ suffix))).length
      (n1 ++ (slashedNames items ++ suffix)) ['/'] 1
      = '/' :: n1 ++ (items.map (fun it => '/' :: it.2)).flatten := by
    rw [List.length_cons, cleanLoop_name true _ 1 n1 (slashedNames items ++ suffix) ['/'] hn1
      (slashedNames_head items suffix (fun it h => (hitems it h).1) hs')]
    obtain ⟨fuel', hf, heq⟩ := cleanLoop_slashedNames true items suffix
      (n1 ++ (slashedNames items ++ suffix)).length 1
      ((if (true && (['/'] : List Char).length != 1) || (!true && (['/'] : List Char).length != 0)
        then ['/'] ++ ['/'] else ['/']) ++ n1) hitems hs' (by simp)
    rw [heq, cleanLoop_suffix true fuel' 1 suffix _ hs hf]
    have := writeNames_rooted n1 (items.map Prod.snd) hn1.1
    simpa [List.map_map] using this
  unfold cleanChars
  simp only [List.cons_ne_nil, if_false, List.head?_cons, decide_True, if_true, List.tail_cons]
  rw [hloop]
  simp

theorem cleanChars_relative_names (n1 : List Char) (items : List (Nat × List Char))
    (suffix : List Char)
    (hn1 : n1 ≠ [] ∧ '/' ∉ n1 ∧ n1 ≠ ['.'] ∧ n1 ≠ ['.', '.'])
    (hitems : ∀ it ∈ items, 1 ≤ it.1 ∧
      (it.2 ≠ [] ∧ '/' ∉ it.2 ∧ it.2 ≠ ['.'] ∧ it.2 ≠ ['.', '.']))
    (hs : suffix = [] ∨ suffix = ['/'] ∨ suffix = ['/', '.']) :
    cleanChars (n1 ++ (slashedNames items ++ suffix))
      = n1 ++ (items.map (fun it => '/' :: it.2)).flatten := by
  have hs' : suffix = [] ∨ suffix.head? = some '/' := by
    rcases hs with rfl | rfl | rfl <;> simp
  obtain ⟨ch, cs, rfl⟩ : ∃ ch cs, n1 = ch :: cs := by
    cases n1 with
    | nil => exact absurd rfl hn1.1
    | cons x xs => exact ⟨x, xs, rfl⟩
  have hch : ch ≠ '/' := fun h => hn1.2.1 (h ▸ List.mem_cons_self _ _)
  have hloop : cleanLoop false ((ch :: cs) ++ (slashedNames items ++ suffix)).length
      ((ch :: cs) ++ (slashedNames items ++ suffix)) [] 0
      = (ch :: cs) ++ (items.map (fun it => '/' :: it.2)).flatten := by
    have hlen : ((ch :: cs) ++ (slashedNames items ++ suffix)).length
        = (cs ++ (slashedNames items ++ suffix)).length + 1 := by simp
    rw [hlen, cleanLoop_name false _ 0 (ch :: cs) (slashedNames items ++ suffix) [] hn1
      (slashedNames_head items suffix (fun it h => (hitems it h).1) hs')]
    obtain ⟨fuel', hf, heq⟩ := cleanLoop_slashedNames false items suffix
      (cs ++ (slashedNames items ++ suffix)).length 0
      ((if (false && ([] : List Char).length != 1) || (!false && ([] : List Char).length != 0)
        then [] ++ ['/'] else []) ++ (ch :: cs)) hitems hs' (by simp)
    rw [heq, cleanLoop_suffix false fuel' 0 suffix _ hs hf]
    have := writeNames_relative (ch :: cs) (items.map Prod.snd) (by simp)
    simpa [List.map_map] using this
  unfold cleanChars
  have hhead : ¬ (((ch :: cs) ++ (slashedNames items ++ suffix)).head? = some '/') := by
    simpa using hch
  simp only [List.cons_append, List.cons_ne_nil, if_false] at hhead ⊢
  simp only [hhead, decide_False, Bool.false_eq_true, if_false]
  rw [← List.cons_append, hloop]
  simp

theorem plain_of_isPlainName (n : String) (h : isPlainName n = true) :
    n.data ≠ [] ∧ '/' ∉ n.data ∧ n.data ≠ ['.'] ∧ n.data ≠ ['.', '.'] := by
  simpa [isPlainName] using h

theorem plain_items (names : List String) (k : Nat) (hk : 1 ≤ k)
    (hplain : ∀ n ∈ names, isPlainName n = true) :
    ∀ it ∈ names.map (fun n => (k, n.data)),
      1 ≤ it.1 ∧ (it.2 ≠ [] ∧ '/' ∉ it.2 ∧ it.2 ≠ ['.'] ∧ it.2 ≠ ['.', '.']) := by
  intro it hit
  simp only [List.mem_map] at hit
  obtain ⟨n, hn, rfl⟩ := hit
  exact ⟨hk, plain_of_isPlainName n (hplain n hn)⟩

theorem rootedPath_ne_empty (names : List String) : rootedPath names ≠ "" := by
  intro h
  have := congrArg String.data h
  simp [rootedPath] at this

theorem rootedPath_append (ds ps : List String) (hds : ds ≠ []) :
    rootedPath (ds ++ ps)
      = rootedPath ds ++ ⟨((ps.map String.data).map (fun m => '/' :: m)).flatten⟩ := by
  cases ds with
  | nil => exact absurd rfl hds
  | cons d ds' =>
    apply String.ext
    simp only [rootedPath, List.cons_append, List.map_cons, List.map_append,
      intercalate_slash_cons, String.data_append]
    simp

theorem rootedPath_data (ps : List String) (hps : ps ≠ []) :
    (rootedPath ps).data = ((ps.map String.data).map (fun m => '/' :: m)).flatten := by
  cases ps with
  | nil => exact absurd rfl hps
  | cons q ps' => simp [rootedPath, intercalate_slash_cons]

theorem joinItems_plain (k : Nat) (ps : List String) (hk : 1 ≤ k)
    (hplain : ∀ n ∈ ps, isPlainName n = true) :
    ∀ it ∈ joinItems k ps,
      1 ≤ it.1 ∧ (it.2 ≠ [] ∧ '/' ∉ it.2 ∧ it.2 ≠ ['.'] ∧ it.2 ≠ ['.', '.']) := by
  cases ps with
  | nil => simp [joinItems]
  | cons q ps' =>
    intro it hit
    rcases List.mem_cons.1 hit with rfl | h
    · exact ⟨hk, plain_of_isPlainName q (hplain q (by simp))⟩
    · exact plain_items ps' 1 (le_refl _) (fun n hn => hplain n (by simp [hn])) it h

theorem joinItems_names (k : Nat) (ps : List String) :
    ((joinItems k ps).map (fun it => '/' :: it.2)).flatten
      = (ps.map (fun n => '/' :: n.data)).flatten := by
  cases ps with
  | nil => rfl
  | cons q ps' => simp [joinItems, List.map_map, Function.comp_def]

/-- The core of the join lemmas: cleaning a rooted path of plain names followed
by plain names, the first after `k ≥ 1` slashes and the others after one, and
possibly a final `/` or `/.`, gives the rooted path of all the names. -/
theorem path_Clean_rooted (ds ps : List String) (k : Nat) (suffix : List Char)
    (hds : ds ≠ []) (hk : 1 ≤ k) (hplain : ∀ n ∈ ds ++ ps, isPlainName n = true)
    (hs : suffix = [] ∨ suffix = ['/'] ∨ suffix = ['/', '.']) :
    path_Clean ⟨(rootedPath ds).data ++ (slashedNames (joinItems k ps) ++ suffix)⟩
      = rootedPath (ds ++ ps) := by
  cases ds with
  | nil => exact absurd rfl hds
  | cons d ds' =>
    have hd := plain_of_isPlainName d (hplain d (by simp))
    have hitems : ∀ it ∈ (ds'.map (fun n => (1, n.data)) ++ joinItems k ps),
        1 ≤ it.1 ∧ (it.2 ≠ [] ∧ '/' ∉ it.2 ∧ it.2 ≠ ['.'] ∧ it.2 ≠ ['.', '.']) := by
      intro it hit
      rcases List.mem_append.1 hit with h | h
      · exact plain_items ds' 1 (le_refl _) (fun n hn => hplain n (by simp [hn])) it h
      · exact joinItems_plain k ps hk (fun n hn => hplain n (by simp [hn])) it h
    have hclean := cleanChars_rooted_names d.data _ suffix hd hitems hs
    apply String.ext
    have hin : (rootedPath (d :: ds')).data ++ (slashedNames (joinItems k ps) ++ suffix)
        = '/' :: (d.data ++ (slashedNames (ds'.map (fun n => (1, n.data))
            ++ joinItems k ps) ++ suffix)) := by
      have h1 := slashedNames_ones (ds'.map String.data)
      simp only [List.map_map, Function.comp_def] at h1
      simp only [rootedPath, List.map_cons, intercalate_slash_cons, slashedNames_append, h1,
        List.map_map, Function.comp_def]
      simp
    simp only [path_Clean]
    rw [hin, hclean, List.map_append, List.flatten_append, joinItems_names]
    simp [rootedPath, intercalate_slash_cons, List.map_map, Function.comp_def]

theorem joinItems_slashed (k : Nat) (q : String) (ps : List String) :
    slashedNames (joinItems k (q :: ps))
      = List.replicate k '/' ++ (relativePath (q :: ps)).data := by
  have h1 := slashedNames_ones (ps.map String.data)
  simp only [List.map_map, Function.comp_def] at h1
  simp [joinItems, slashedNames, relativePath, intercalate_slash_cons, h1, List.map_map,
    Function.comp_def]

theorem rootedPath_eq (ps : List String) :
    rootedPath ps = "/" ++ relativePath ps := by
  apply String.ext
  simp [rootedPath, relativePath]

/-- Joining a rooted path of plain names under another one is plain
concatenation. -/
theorem path_Join_rooted (ds ps : List String) (hds : ds ≠ []) (hps : ps ≠ [])
    (hplain : ∀ n ∈ ds ++ ps, isPlainName n = true) :
    path_Join [rootedPath ds, rootedPath ps] = rootedPath ds ++ rootedPath ps := by
  have h := path_Clean_rooted ds ps 2 [] hds (by decide) hplain (Or.inl rfl)
  cases ps with
  | nil => exact absurd rfl hps
  | cons q ps' =>
    unfold path_Join
    rw [if_pos (rootedPath_ne_empty ds)]
    have hin : (⟨List.intercalate ['/'] ([rootedPath ds, rootedPath (q :: ps')].map String.data)⟩
        : String) = ⟨(rootedPath ds).data ++ (slashedNames (joinItems 2 (q :: ps')) ++ [])⟩ := by
      apply String.ext
      rw [joinItems_slashed]
      simp [intercalate_slash_cons, rootedPath, relativePath, List.replicate_succ]
    rw [hin, h, rootedPath_append ds (q :: ps') hds]
    apply String.ext
    simp [rootedPath_data (q :: ps') (by simp)]

/-- Joining a relative path of plain names under a rooted one puts one `/`
between them. -/
theorem path_Join_relative (ds ps : List String) (hds : ds ≠ []) (hps : ps ≠ [])
    (hplain : ∀ n ∈ ds ++ ps, isPlainName n = true) :
    path_Join [rootedPath ds, relativePath ps] = rootedPath ds ++ rootedPath ps := by
  have h := path_Clean_rooted ds ps 1 [] hds (le_refl _) hplain (Or.inl rfl)
  cases ps with
  | nil => exact absurd rfl hps
  | cons q ps' =>
    unfold path_Join
    rw [if_pos (rootedPath_ne_empty ds)]
    have hin : (⟨List.intercalate ['/']
          ([rootedPath ds, relativePath (q :: ps')].map String.data)⟩ : String)
        = ⟨(rootedPath ds).data ++ (slashedNames (joinItems 1 (q :: ps')) ++ [])⟩ := by
      apply String.ext
      rw [joinItems_slashed]
      simp [intercalate_slash_cons, rootedPath, relativePath, List.replicate_succ]
    rw [hin, h, rootedPath_append ds (q :: ps') hds]
    apply String.ext
    simp [rootedPath_data (q :: ps') (by simp)]

/-- Joining `.` under a rooted path of plain names gives the path back. -/
theorem path_Join_dot (ds : List String) (hds : ds ≠ [])
    (hplain : ∀ n ∈ ds, isPlainName n = true) :
    path_Join [rootedPath ds, "."] = rootedPath ds := by
  have h := path_Clean_rooted ds [] 1 ['/', '.'] hds (le_refl _)
    (by simpa using hplain) (Or.inr (Or.inr rfl))
  unfold path_Join
  rw [if_pos (rootedPath_ne_empty ds)]
  have hin : (⟨List.intercalate ['/'] ([rootedPath ds, "."].map String.data)⟩ : String)
      = ⟨(rootedPath ds).data ++ (slashedNames (joinItems 1 []) ++ ['/', '.'])⟩ := by
    apply String.ext
    simp [intercalate_slash_cons, slashedNames, joinItems]
  rw [hin, h, List.append_nil]

theorem trailing_slash_names (n : List Char) (names : List (List Char)) :
    ((n :: names).map (fun m => m ++ ['/'])).flatten
      = n ++ ((names.map (fun m => '/' :: m)).flatten ++ ['/']) := by
  induction names generalizing n with
  | nil => simp
  | cons m rest ih =>
    have h := ih m
    simp only [List.map_cons, List.flatten_cons] at h ⊢
    rw [h]
    simp

theorem intercalate_concat (names : List (List Char)) (last : List Char) :
    List.intercalate ['/'] (names ++ [last])
      = (names.map (fun m => m ++ ['/'])).flatten ++ last := by
  cases names with
  | nil => simp [List.intercalate]
  | cons n rest =>
    rw [List.cons_append, intercalate_slash_cons, trailing_slash_names]
    simp

theorem trailing_slash_end (names : List (List Char)) :
    (names.map (fun m => m ++ ['/'])).flatten = [] ∨
    ∃ pre, (names.map (fun m => m ++ ['/'])).flatten = pre ++ ['/'] := by
  cases names with
  | nil => left; rfl
  | cons n rest =>
    right
    rw [trailing_slash_names]
    exact ⟨n ++ (rest.map (fun m => '/' :: m)).flatten, by simp⟩

theorem baseChars_last (pre last : List Char) (hlast : last ≠ [] ∧ '/' ∉ last)
    (hpre : pre = [] ∨ ∃ pre', pre = pre' ++ ['/']) :
    baseChars (pre ++ last) = last := by
  obtain ⟨hne, hslash⟩ := hlast
  have hpos : ∀ x ∈ last.reverse, (fun d : Char => decide (d ≠ '/')) x = true := by
    intro x hx
    rw [List.mem_reverse] at hx
    simp only [ne_eq, decide_not, Bool.not_eq_eq_eq_not, Bool.not_true, decide_eq_false_iff_not]
    rintro rfl
    exact hslash hx
  obtain ⟨x, xs, hrev⟩ : ∃ x xs, last.reverse = x :: xs := by
    cases h : last.reverse with
    | nil => exact absurd (List.reverse_eq_nil_iff.1 h) hne
    | cons x xs => exact ⟨x, xs, rfl⟩
  have hx : x ≠ '/' := by
    have := hpos x (by rw [hrev]; exact List.mem_cons_self _ _)
    simpa using this
  have hstrip : ((pre ++ last).reverse.dropWhile (fun c => decide (c = '/')))
      = (pre ++ last).reverse := by
    rw [List.reverse_append, hrev]
    simp [List.dropWhile_cons, hx]
  have htake : (pre ++ last).reverse.takeWhile (fun c => decide (c ≠ '/')) = last.reverse := by
    rw [List.reverse_append, List.takeWhile_append_of_pos hpos]
    rcases hpre with rfl | ⟨pre', rfl⟩
    · simp
    · simp
  unfold baseChars
  have hne2 : pre ++ last ≠ [] := by
    intro h
    exact hne (List.append_eq_nil.1 h).2
  simp only [hne2, if_false, hstrip, List.reverse_reverse, htake]
  simp [hne]

theorem splitDirChars_last (pre last : List Char) (hlast : '/' ∉ last)
    (hpre : pre = [] ∨ ∃ pre', pre = pre' ++ ['/']) :
    splitDirChars (pre ++ last) = pre := by
  have hpos : ∀ x ∈ last.reverse, (fun d : Char => decide (d ≠ '/')) x = true := by
    intro x hx
    rw [List.mem_reverse] at hx
    simp only [ne_eq, decide_not, Bool.not_eq_eq_eq_not, Bool.not_true, decide_eq_false_iff_not]
    rintro rfl
    exact hlast hx
  unfold splitDirChars
  rw [List.reverse_append, List.dropWhile_append_of_pos hpos]
  rcases hpre with rfl | ⟨pre', rfl⟩
  · simp
  · simp

theorem files_plain :
    "files".data ≠ [] ∧ '/' ∉ "files".data ∧ "files".data ≠ ['.'] ∧ "files".data ≠ ['.', '.'] := by
  decide

/-- An entry name `files/n₁/…/nₖ` of plain names is clean, and `untar` derives
the doctype `files` and the relative name `n₁/…/nₖ` from it. -/
theorem untarParts_files (ps : List String) (hps : ps ≠ [])
    (hplain : ∀ n ∈ ps, isPlainName n = true) :
    path_Clean ("files" ++ rootedPath ps) = "files" ++ rootedPath ps ∧
    untarParts ("files" ++ rootedPath ps) = ("files", relativePath ps) ∧
    strings_TrimPrefix ("files" ++ rootedPath ps) "files/" = relativePath ps := by
  cases ps with
  | nil => exact absurd rfl hps
  | cons q ps' =>
    have hdata : ("files" ++ rootedPath (q :: ps')).data
        = "files".data ++ (slashedNames (joinItems 1 (q :: ps')) ++ []) := by
      rw [joinItems_slashed]
      simp [rootedPath, relativePath, List.replicate_succ]
    have hclean : path_Clean ("files" ++ rootedPath (q :: ps')) = "files" ++ rootedPath (q :: ps') := by
      apply String.ext
      have hc := cleanChars_relative_names "files".data _ [] files_plain
        (joinItems_plain 1 (q :: ps') (le_refl _) hplain) (Or.inl rfl)
      rw [← hdata, joinItems_names] at hc
      simp only [path_Clean]
      rw [hc]
      simp [rootedPath, intercalate_slash_cons, List.map_map, Function.comp_def]
    refine ⟨hclean, ?_, ?_⟩
    · have hd : (path_Clean ("files" ++ rootedPath (q :: ps'))).data
          = "files".data ++ '/' :: (relativePath (q :: ps')).data := by
        rw [hclean]
        simp [rootedPath, relativePath]
      have hno : '/' ∉ "files".data := by decide
      simp only [untarParts, strings_SplitN_slash, hd, splitNChars_two_of_mem _ _ hno]
      simp
    · apply String.ext
      have hd : ("files" ++ rootedPath (q :: ps')).data
          = "files/".data ++ (relativePath (q :: ps')).data := by
        simp [rootedPath, relativePath]
      simp only [strings_TrimPrefix, trimPrefixChars, hd]
      have hp : ("files/".data).isPrefixOf ("files/".data ++ (relativePath (q :: ps')).data)
          = true := by
        rw [List.isPrefixOf_iff_prefix]
        exact List.prefix_append _ _
      rw [if_pos hp]
      simp

/-- Where `createFile` places the entry `files/n₁/…/nₖ` of plain names under a
rooted destination of plain names: the directory joined with the leaf name is
the destination followed by `/n₁/…/nₖ`. -/
theorem createFile_place (ds ps : List String) (hds : ds ≠ []) (hps : ps ≠ [])
    (hplain : ∀ n ∈ ds ++ ps, isPlainName n = true) :
    path_Join [rootedPath ds, path_Dir (relativePath ps)] ++ "/" ++ path_Base (relativePath ps)
      = rootedPath ds ++ rootedPath ps := by
  rcases List.eq_nil_or_concat ps with h | ⟨init, last, rfl⟩
  · exact absurd h hps
  · simp only [List.concat_eq_append] at hps hplain ⊢
    have hlast := plain_of_isPlainName last (hplain last (by simp))
    have hdata : (relativePath (init ++ [last])).data
        = ((init.map String.data).map (fun m => m ++ ['/'])).flatten ++ last.data := by
      simp only [relativePath, List.map_append, List.map_cons, List.map_nil]
      exact intercalate_concat _ _
    have hend := trailing_slash_end (init.map String.data)
    have hbase : path_Base (relativePath (init ++ [last])) = last := by
      apply String.ext
      simp only [path_Base]
      rw [hdata, baseChars_last _ _ ⟨hlast.1, hlast.2.1⟩ hend]
    have hsplit : splitDirChars (relativePath (init ++ [last])).data
        = ((init.map String.data).map (fun m => m ++ ['/'])).flatten := by
      rw [hdata, splitDirChars_last _ _ hlast.2.1 hend]
    cases init with
    | nil =>
      have hdir : path_Dir (relativePath ([] ++ [last])) = "." := by
        apply String.ext
        simp only [path_Dir]
        rw [hsplit]
        decide
      rw [hdir, hbase, path_Join_dot ds hds (fun n hn => hplain n (by simp [hn]))]
      apply String.ext
      simp [rootedPath, List.intercalate]
    | cons n init' =>
      have hn := plain_of_isPlainName n (hplain n (by simp))
      have hdir : path_Dir (relativePath ((n :: init') ++ [last])) = relativePath (n :: init') := by
        apply String.ext
        simp only [path_Dir]
        rw [hsplit, List.map_cons, trailing_slash_names]
        have h1 := slashedNames_ones (init'.map String.data)
        simp only [List.map_map, Function.comp_def] at h1
        simp only [List.map_map, Function.comp_def]
        rw [← h1]
        have hitems := plain_items init' 1 (le_refl _) (fun m hm => hplain m (by simp [hm]))
        rw [cleanChars_relative_names n.data _ ['/'] hn hitems (Or.inr (Or.inl rfl))]
        simp [relativePath, intercalate_slash_cons, List.map_map, Function.comp_def]
      rw [hdir, hbase, path_Join_relative ds (n :: init') hds (by simp)
        (fun m hm => hplain m (by
          rcases List.mem_append.1 hm with h | h
          · simp [h]
          · simp only [List.mem_append, List.mem_cons] at h ⊢
            rcases h with h | h
            · simp [h]
            · simp [h]))]
      apply String.ext
      have h2 : (relativePath ((n :: init') ++ [last])).data
          = (relativePath (n :: init')).data ++ '/' :: last.data := by
        rw [hdata, List.map_cons, trailing_slash_names]
        simp [relativePath, intercalate_slash_cons]
      rw [rootedPath_eq (n :: init'), rootedPath_eq ((n :: init') ++ [last])]
      simp only [String.data_append, h2]
      simp

/-! ## Claim on the lookup path of `fillAlbums` -/

theorem lookedUp_append {X : Type} (l1 l2 : List (Event X)) :
    lookedUp (l1 ++ l2) = lookedUp l1 ++ lookedUp l2 := by
  induction l1 with
  | nil => rfl
  | cons e rest ih => cases e <;> simp [lookedUp, ih]

theorem fillAlbumsLoop_lookups {σ X : Type} (c : Collab σ X) (dstDoc : DirDoc)
    (lines : List String) (albums : AlbumReferences) (w : World σ X) (refs : List Reference)
    (hparse : lines.map c.UnmarshalReference = refs.map Except.ok) :
    ∃ added k, (fillAlbumsLoop c dstDoc lines albums w).2.2.trace = w.trace ++ added ∧
      k ≤ refs.length ∧
      lookedUp added = (refs.take k).map (fun ref => dstDoc.Fullpath ++ ref.Filepath) ∧
      ((fillAlbumsLoop c dstDoc lines albums w).1 = none → k = refs.length) := by
  induction lines generalizing refs w with
  | nil =>
    cases refs with
    | nil => exact ⟨[], 0, by simp [fillAlbumsLoop], le_refl _, rfl, fun _ => rfl⟩
    | cons r rs => simp at hparse
  | cons line rest ih =>
    cases refs with
    | nil => simp at hparse
    | cons ref rs =>
      simp only [List.map_cons, List.cons.injEq] at hparse
      obtain ⟨hp, hrest⟩ := hparse
      rw [fillAlbumsLoop]
      simp only [hp, fs_FileByPath]
      cases hf : c.FileByPath w.st (dstDoc.Fullpath ++ ref.Filepath) with
      | error err =>
        simp only []
        obtain ⟨added, k, h1, h2, h3, h4⟩ := ih
          (w.step w.st (Event.FileByPath (dstDoc.Fullpath ++ ref.Filepath) false)) rs hrest
        refine ⟨Event.FileByPath (dstDoc.Fullpath ++ ref.Filepath) false :: added, k + 1,
          ?_, by simpa using h2, ?_, ?_⟩
        · rw [h1]; simp [World.step]
        · simp [lookedUp, h3]
        · intro hn; simpa using h4 hn
      | ok file =>
        simp only []
        cases ha : mapGet albums ref.Albumid with
        | none =>
          simp only []
          obtain ⟨added, k, h1, h2, h3, h4⟩ := ih
            (w.step w.st (Event.FileByPath (dstDoc.Fullpath ++ ref.Filepath) true)) rs hrest
          refine ⟨Event.FileByPath (dstDoc.Fullpath ++ ref.Filepath) true :: added, k + 1,
            ?_, by simpa using h2, ?_, ?_⟩
          · rw [h1]; simp [World.step]
          · simp [lookedUp, h3]
          · intro hn; simpa using h4 hn
        | some docRef =>
          simp only [couchdb_UpdateDoc]
          rcases hu : c.UpdateDoc
              (w.step w.st (Event.FileByPath (dstDoc.Fullpath ++ ref.Filepath) true)).st
              (Doc.file (file.AddReferencedBy docRef)) with ⟨err | err, s⟩
          · simp only [hu]
            obtain ⟨added, k, h1, h2, h3, h4⟩ := ih
              ((w.step w.st (Event.FileByPath (dstDoc.Fullpath ++ ref.Filepath) true)).step s
                (Event.UpdateDoc (Doc.file (file.AddReferencedBy docRef)) none)) rs hrest
            refine ⟨Event.FileByPath (dstDoc.Fullpath ++ ref.Filepath) true ::
              Event.UpdateDoc (Doc.file (file.AddReferencedBy docRef)) none :: added, k + 1,
              ?_, by simpa using h2, ?_, ?_⟩
            · rw [h1]; simp [World.step]
            · simp [lookedUp, h3]
            · intro hn; simpa using h4 hn
          · simp only [hu]
            refine ⟨[Event.FileByPath (dstDoc.Fullpath ++ ref.Filepath) true,
              Event.UpdateDoc (Doc.file (file.AddReferencedBy docRef)) (some err)], 1,
              ?_, by simp, ?_, ?_⟩
            · simp [World.step]
            · simp [lookedUp]
            · intro hn; simp at hn

/-- The paths at which `fillAlbums` looks the target files up are, record after
record, the plain concatenation of the destination's full path and the
record's file path; when the destination is a rooted path of plain names
(so not the root) and the file path is `/` followed by plain names separated
by `/`, that concatenation is the join of the file path under the destination,
it is the directory the materializer creates for the entry `files` ++ file
path, and it is the place (directory, `/`, leaf name) where `createFile` puts
that entry. -/
theorem fillAlbums_lookup_path {σ X : Type} (c : Collab σ X) (tr : String)
    (dstDoc : DirDoc) (albums : AlbumReferences) (w : World σ X) (refs : List Reference)
    (hparse : (c.ScanLines tr).map c.UnmarshalReference = refs.map Except.ok) :
    (∃ added k, (fillAlbums c tr dstDoc albums w).2.2.trace = w.trace ++ added ∧
      k ≤ refs.length ∧
      lookedUp added = (refs.take k).map (fun ref => dstDoc.Fullpath ++ ref.Filepath) ∧
      ((fillAlbums c tr dstDoc albums w).1 = none → k = refs.length)) ∧
    (∀ ds ps : List String, ds ≠ [] → ps ≠ [] → (∀ n ∈ ds ++ ps, isPlainName n = true) →
      dstDoc.Fullpath = rootedPath ds →
      ∀ ref ∈ refs, ref.Filepath = rootedPath ps →
        dstDoc.Fullpath ++ ref.Filepath = path_Join [dstDoc.Fullpath, ref.Filepath] ∧
        untarParts ("files" ++ ref.Filepath) = ("files", relativePath ps) ∧
        dstDoc.Fullpath ++ ref.Filepath
          = path_Join [dstDoc.Fullpath, (untarParts ("files" ++ ref.Filepath)).2] ∧
        dstDoc.Fullpath ++ ref.Filepath
          = path_Join [dstDoc.Fullpath,
              path_Dir (strings_TrimPrefix ("files" ++ ref.Filepath) "files/")]
            ++ "/" ++ path_Base (strings_TrimPrefix ("files" ++ ref.Filepath) "files/")) := by
  refine ⟨fillAlbumsLoop_lookups c dstDoc (c.ScanLines tr) albums w refs hparse, ?_⟩
  intro ds ps hds hps hplain hd ref _ hp
  have hps' : ∀ n ∈ ps, isPlainName n = true := fun n hn => hplain n (by simp [hn])
  obtain ⟨_, hparts, htrim⟩ := untarParts_files ps hps hps'
  rw [hd, hp, hparts, htrim]
  refine ⟨(path_Join_rooted ds ps hds hps hplain).symm, rfl,
    (path_Join_relative ds ps hds hps hplain).symm,
    (createFile_place ds ps hds hps hplain).symm⟩

/-- C8 at two imports of the archive made of `files/photo.jpg`, the manifest of
the album `a1` and one reference record for that album.  Under the destination
`/dst`, with the record file path `photo.jpg`: `fillAlbums` looks the file up
at the concatenation `/dstphoto.jpg`, not at the join `/dst/photo.jpg` where
`createFile` has put the entry.  Under the root destination `/`, with the
record file path `/photo.jpg`: it looks the file up at `//photo.jpg`, not at
the join `/photo.jpg` where the entry has been put.  In both imports the
lookup finds nothing in the store, the import succeeds and the file gets no
back-reference; under `/dst` with the file path `/photo.jpg` the two paths
agree and the file gets its back-reference. -/
theorem fillAlbums_concatenates :
    (lookedUp (untar (memCollab [] albumRecords references) "albums.json" "references.json"
        (.ok (photoArchive relativeRef)) dstDir ⟨memStoreWith [] [], []⟩).2.trace
      = ["/dstphoto.jpg"] ∧
     path_Join [dstDir.Fullpath, "photo.jpg"] = "/dst/photo.jpg" ∧
     "/dstphoto.jpg" ≠ "/dst/photo.jpg" ∧
     (untar (memCollab [] albumRecords references) "albums.json" "references.json"
        (.ok (photoArchive relativeRef)) dstDir ⟨memStoreWith [] [], []⟩).2.st.paths
      = [some "/dst/photo.jpg"] ∧
     (untar (memCollab [] albumRecords references) "albums.json" "references.json"
        (.ok (photoArchive relativeRef)) dstDir ⟨memStoreWith [] [], []⟩).1 = none ∧
     updatedReferences (untar (memCollab [] albumRecords references) "albums.json"
        "references.json" (.ok (photoArchive relativeRef)) dstDir
        ⟨memStoreWith [] [], []⟩).2.trace = []) ∧
    (lookedUp (untar (memCollab [] albumRecords references) "albums.json" "references.json"
        (.ok (photoArchive photoRef)) rootDir ⟨rootStore, []⟩).2.trace
      = ["//photo.jpg"] ∧
     path_Join [rootDir.Fullpath, "/photo.jpg"] = "/photo.jpg" ∧
     "//photo.jpg" ≠ "/photo.jpg" ∧
     (untar (memCollab [] albumRecords references) "albums.json" "references.json"
        (.ok (photoArchive photoRef)) rootDir ⟨rootStore, []⟩).2.st.paths
      = [some "/photo.jpg"] ∧
     (untar (memCollab [] albumRecords references) "albums.json" "references.json"
        (.ok (photoArchive photoRef)) rootDir ⟨rootStore, []⟩).1 = none ∧
     updatedReferences (untar (memCollab [] albumRecords references) "albums.json"
        "references.json" (.ok (photoArchive photoRef)) rootDir ⟨rootStore, []⟩).2.trace
      = []) ∧
    (lookedUp (untar (memCollab [] albumRecords references) "albums.json" "references.json"
        (.ok (photoArchive photoRef)) dstDir ⟨memStoreWith [] [], []⟩).2.trace
      = ["/dst/photo.jpg"] ∧
     updatedReferences (untar (memCollab [] albumRecords references) "albums.json"
        "references.json" (.ok (photoArchive photoRef)) dstDir
        ⟨memStoreWith [] [], []⟩).2.trace
      = [("photo.jpg", [{ ID := "doc0", Type_ := "io.cozy.photos.albums" }])]) := by
  refine ⟨⟨by rfl, by rfl, by decide, by rfl, by rfl, by rfl⟩,
    ⟨by rfl, by rfl, by decide, by rfl, by rfl, by rfl⟩, ⟨by rfl, by rfl⟩⟩

/-! ## Claim on the place of imported files -/

/-- C2 at the regular-file entry `./files/a.txt` under the destination `/dst`:
the dispatcher cleans the name, classifies the entry as doctype `files` with
relative name `a.txt`, whose join under the destination is `/dst/a.txt`, and
calls `createFile`; `createFile` trims the prefix `files/` from the raw name,
finds none, and creates the file `a.txt` in the directory `/dst/files`, so the
file ends at `/dst/files/a.txt`.  The directory entry `./files/sub` of the same
archive is created at `/dst/sub`. -/
theorem createFile_raw_name :
    untarParts "./files/a.txt" = ("files", "a.txt") ∧
    path_Join [dstDir.Fullpath, (untarParts "./files/a.txt").2] = "/dst/a.txt" ∧
    strings_TrimPrefix "./files/a.txt" "files/" = "./files/a.txt" ∧
    path_Join [dstDir.Fullpath, path_Dir (strings_TrimPrefix "./files/a.txt" "files/")]
      = "/dst/files" ∧
    path_Base (strings_TrimPrefix "./files/a.txt" "files/") = "a.txt" ∧
    placed (untar (memCollab [] [] []) "albums.json" "references.json"
        (.ok [TarNext.entry (regHeader "./files/a.txt") "0123456789"]) dstDir
        ⟨memStoreWith [] [], []⟩).2.trace
      = [("/dst/files", ""), ("dir:/dst/files", "a.txt")] ∧
    (untar (memCollab [] [] []) "albums.json" "references.json"
        (.ok [TarNext.entry (regHeader "./files/a.txt") "0123456789"]) dstDir
        ⟨memStoreWith [] [], []⟩).2.st.paths = [some "/dst/files/a.txt"] ∧
    (untar (memCollab [] [] []) "albums.json" "references.json"
        (.ok [TarNext.entry (regHeader "./files/a.txt") "0123456789"]) dstDir
        ⟨memStoreWith [] [], []⟩).1 = none ∧
    placed (untar (memCollab [] [] []) "albums.json" "references.json"
        (.ok [TarNext.entry { regHeader "./files/sub" with Typeflag := tar_TypeDir } ""]) dstDir
        ⟨memStoreWith [] [], []⟩).2.trace
      = [("/dst/sub", "")] := by
  refine ⟨by rfl, by rfl, by rfl, by rfl, by rfl, by rfl, by rfl, by rfl, by rfl⟩

end Move
